import Mathlib

/-!
Verification of the numeric core of the rgb2hsi repository (`utils.py`)
against its natural-language specification.

The development shallowly embeds the four components the claims are about:

* `PatchGenerator.next_patch`  — overlapping patch tiling (pure integer
  arithmetic, embedded exactly over `ℕ`/`ℤ`/`ℚ`);
* `reconstruction_SADloss`     — spectral-angle loss (the claim is about the
  missing clamp between `cosine_similarity` and `acos`);
* `calculate_weights_indices` and `imresize` — MATLAB-style bicubic resize
  (embedded over `ℚ`; machine floats are modelled by exact rationals);
* `FocalFrequencyLoss`         — frequency-domain loss (embedded over `ℝ`,
  since the discrete Fourier transform is irrational; fallible steps, i.e.
  Python `assert`s and shape errors, return `Option`/`Except`).

Python `assert` failures and torch runtime errors are modelled as `none`;
a `some` result is a normal return.
-/

namespace RGB2HSI

/-! ## PatchGenerator (utils.py, class PatchGenerator)

`next_patch` yields tuples `(h, w, top, left, bottom, right)`.  The block
count along an axis is `int(np.ceil((len - 2*pad) / (ps - 2*pad)))`; the
float division is modelled by exact division in `ℚ` (exact for the integer
ranges in use).  `range` of a nonpositive count is empty, matching Python.
-/

/-- A patch descriptor `(h, w, top_padding, left_padding, bottom_padding,
right_padding)` as yielded by `PatchGenerator.next_patch`. -/
structure PatchDesc where
  h : ℤ
  w : ℤ
  top : ℕ
  left : ℕ
  bottom : ℕ
  right : ℕ
deriving DecidableEq, Repr

/-- `int(np.ceil((len - 2*pad) / (ps - 2*pad)))` — the number of tile
positions along one axis.  (For `ps = 2*pad` the Python code raises
`ZeroDivisionError`; theorems below assume `2*pad ≠ ps`.) -/
def blockNum (len ps pad : ℕ) : ℤ :=
  ⌈((len : ℚ) - 2 * pad) / ((ps : ℚ) - 2 * pad)⌉

/-- The descriptor produced for tile `(i, j)` of the grid: offsets are
`i*(ps-2*pad)` clamped to `0` for the first tile and to `len - ps` for the
last tile; paddings are nominal except `top`/`left` on the first tile and
`bottom`/`right` on a last tile that is not also the first (the Python
`if i == 0: ... elif i == n-1: ...` chain). -/
def patchAt (H W ps pad : ℕ) (i j : ℕ) : PatchDesc :=
  let Hn := (blockNum H ps pad).toNat
  let Wn := (blockNum W ps pad).toNat
  { h := if i = 0 then 0 else if i = Hn - 1 then (H : ℤ) - ps else (i : ℤ) * ((ps : ℤ) - 2 * pad)
    w := if j = 0 then 0 else if j = Wn - 1 then (W : ℤ) - ps else (j : ℤ) * ((ps : ℤ) - 2 * pad)
    top := if i = 0 then 0 else pad
    bottom := if i ≠ 0 ∧ i = Hn - 1 then 0 else pad
    left := if j = 0 then 0 else pad
    right := if j ≠ 0 ∧ j = Wn - 1 then 0 else pad }

/-- The full (finite) sequence yielded by `PatchGenerator(H, W, ps, pad)
.next_patch()`: rows outer, columns inner, ascending. -/
def next_patch (H W ps pad : ℕ) : List PatchDesc :=
  (List.range (blockNum H ps pad).toNat).flatMap fun i =>
    (List.range (blockNum W ps pad).toNat).map fun j => patchAt H W ps pad i j

/-! ## reconstruction_SADloss (utils.py)

`forward(x, y) = mean(acos(cosine_similarity(x, y, dim=1)))`.  The claim is
about what stands between the channel-wise cosine similarity and `acos`.
In floating point the cosine similarity of nearly-aligned vectors can
overshoot `1`; the embedding therefore takes the list of channel-wise
cosine-similarity values (as computed by the float kernel, possibly outside
`[-1,1]`) as input and models `torch.acos` as a fallible map that is `none`
(NaN) outside `[-1,1]`.  The value returned inside the domain is the
argument itself (the subsequent monotone `acos`/`mean` steps are irrelevant
to the domain-safety claim). -/

/-- `torch.acos` domain behaviour: `none` (NaN) outside `[-1, 1]`. -/
def acosArg (c : ℚ) : Option ℚ :=
  if -1 ≤ c ∧ c ≤ 1 then some c else none

/-- The clamp to `[-1, 1]` that the specification mandates before `arccos`. -/
def clampCos (c : ℚ) : ℚ := max (-1) (min 1 c)

/-- Elementwise application of a fallible map, with NaN (`none`) propagating
to the whole result, as it does through `torch.mean`. -/
def optMap (f : ℚ → Option ℚ) : List ℚ → Option (List ℚ)
  | [] => some []
  | c :: cs =>
    match f c, optMap f cs with
    | some a, some as => some (a :: as)
    | _, _ => none

/-- `reconstruction_SADloss.forward` as written: each cosine-similarity
value is passed directly — unclamped — to `torch.acos`. -/
def sadAcosArgs (cs : List ℚ) : Option (List ℚ) :=
  optMap acosArg cs

/-- The forward pass the specification describes: cosine similarity clamped
to `[-1, 1]` before `arccos`. -/
def sadAcosArgsClamped (cs : List ℚ) : Option (List ℚ) :=
  optMap (fun c => acosArg (clampCos c)) cs

/-! ## calculate_weights_indices (utils.py, MATLAB-style resize)

The float tensor computations are embedded over `ℚ`.  The weights and
(pre-shift) indices matrices have entry `(i, j)` given by closed functions
of the row `i` and column `j`; this is faithful because the source builds
`indices` as `left.expand + linspace(0, P-1, P)` (row `i`, column `j` holds
`left i + j`) and `narrow` only drops an initial and/or final column
segment, uniformly over rows. -/

/-- The bicubic convolution kernel `cubic(x)` (utils.py), written exactly as
the masked sum of its two branch polynomials. -/
def cubic (x : ℚ) : ℚ :=
  ((3 / 2) * |x| ^ 3 - (5 / 2) * |x| ^ 2 + 1) * (if |x| ≤ 1 then 1 else 0) +
    ((-1 / 2) * |x| ^ 3 + (5 / 2) * |x| ^ 2 - 4 * |x| + 2) *
      (if 1 < |x| ∧ |x| ≤ 2 then 1 else 0)

/-- The (possibly antialias-widened) kernel width: `4 / scale` when
downscaling with antialiasing, else `4`. -/
def kwidth (scale : ℚ) (aa : Bool) : ℚ :=
  if scale < 1 ∧ aa = true then 4 / scale else 4

/-- Input-space coordinate of output pixel `i` (0-based; the source's
`x = linspace(1, out_length, out_length)` is 1-based):
`u = x / scale + 0.5 * (1 - 1 / scale)`. -/
def uCoord (scale : ℚ) (i : ℕ) : ℚ :=
  ((i : ℚ) + 1) / scale + (1 - 1 / scale) / 2

/-- `left = floor(u - kernel_width / 2)` — the leftmost candidate tap. -/
def leftIdx (scale : ℚ) (aa : Bool) (i : ℕ) : ℤ :=
  ⌊uCoord scale i - kwidth scale aa / 2⌋

/-- `P = ceil(kernel_width) + 2` — the number of candidate taps. -/
def Pnat (scale : ℚ) (aa : Bool) : ℕ :=
  (⌈kwidth scale aa⌉ + 2).toNat

/-- Un-normalized weight at row `i`, column `j`:
`cubic(distance)` with the antialiasing modification
`scale * cubic(distance * scale)` when downscaling. -/
def wRaw (scale : ℚ) (aa : Bool) (i j : ℕ) : ℚ :=
  if scale < 1 ∧ aa = true then
    scale * cubic ((uCoord scale i - (leftIdx scale aa i + j)) * scale)
  else cubic (uCoord scale i - (leftIdx scale aa i + j))

/-- Row sum of the un-normalized weights (`torch.sum(weights, 1)`). -/
def wSum (scale : ℚ) (aa : Bool) (i : ℕ) : ℚ :=
  ∑ j ∈ Finset.range (Pnat scale aa), wRaw scale aa i j

/-- Normalized weight: `weights / weights_sum.expand(...)`. -/
def wNorm (scale : ℚ) (aa : Bool) (i j : ℕ) : ℚ :=
  wRaw scale aa i j / wSum scale aa i

/-- Whether the first weight column is dropped: `weights_zero_tmp[0]` — the
number of rows with a zero in column `0` — is nonzero. -/
def pruneFirst (out : ℕ) (scale : ℚ) (aa : Bool) : Bool :=
  decide (∃ i ∈ Finset.range out, wNorm scale aa i 0 = 0)

/-- Whether the last weight column is dropped: `weights_zero_tmp[-1]` is
nonzero (checked on the original, un-narrowed matrix). -/
def pruneLast (out : ℕ) (scale : ℚ) (aa : Bool) : Bool :=
  decide (∃ i ∈ Finset.range out, wNorm scale aa i (Pnat scale aa - 1) = 0)

/-- First kept column after the two conditional `narrow(1, 1, P-2)` /
`narrow(1, 0, P-2)` calls. -/
def colLo (out : ℕ) (scale : ℚ) (aa : Bool) : ℕ :=
  if pruneFirst out scale aa then 1 else 0

/-- Number of kept columns: `narrow(1, 1, P-2)` keeps columns `1..P-2`, a
subsequent `narrow(1, 0, P-2)` on an already-narrowed matrix keeps it
unchanged, and `narrow(1, 0, P-2)` alone keeps columns `0..P-3`; in every
case where at least one condition fires the width is `P - 2`. -/
def finalWidth (out : ℕ) (scale : ℚ) (aa : Bool) : ℕ :=
  if pruneFirst out scale aa ∨ pruneLast out scale aa then Pnat scale aa - 2
  else Pnat scale aa

/-- Pre-shift index entry `(i, j)` of the pruned indices matrix. -/
def idxPre (out : ℕ) (scale : ℚ) (aa : Bool) (i j : ℕ) : ℤ :=
  leftIdx scale aa i + colLo out scale aa + j

/-- All entries of the pruned indices matrix, row-major. -/
def idxList (out : ℕ) (scale : ℚ) (aa : Bool) : List ℤ :=
  (List.range out).flatMap fun i =>
    (List.range (finalWidth out scale aa)).map fun j => idxPre out scale aa i j

/-- `indices.min()`. -/
def minIdx (out : ℕ) (scale : ℚ) (aa : Bool) : ℤ :=
  (idxList out scale aa).minimum.untop' 0

/-- `indices.max()`. -/
def maxIdx (out : ℕ) (scale : ℚ) (aa : Bool) : ℤ :=
  (idxList out scale aa).maximum.unbot' 0

/-- `sym_len_s = -indices.min() + 1`. -/
def symS (out : ℕ) (scale : ℚ) (aa : Bool) : ℤ := -minIdx out scale aa + 1

/-- `sym_len_e = indices.max() - in_length`. -/
def symE (inLen out : ℕ) (scale : ℚ) (aa : Bool) : ℤ :=
  maxIdx out scale aa - inLen

/-- The result of `calculate_weights_indices`: final weights matrix entries,
final (shifted) indices matrix entries, and the two symmetric-padding
lengths.  Matrices are entry functions together with the column count
`width`; the row count is `out`. -/
structure WeightsIndices where
  width : ℕ
  w : ℕ → ℕ → ℚ
  idx : ℕ → ℕ → ℤ
  symS : ℤ
  symE : ℤ

/-- `calculate_weights_indices(in_length, out_length, scale, 'cubic', 4,
antialiasing)`.  The returned indices are shifted by `sym_len_s - 1`. -/
def calcWI (inLen out : ℕ) (scale : ℚ) (aa : Bool) : WeightsIndices :=
  { width := finalWidth out scale aa
    w := fun i j => wNorm scale aa i (colLo out scale aa + j)
    idx := fun i j => idxPre out scale aa i j + symS out scale aa - 1
    symS := symS out scale aa
    symE := symE inLen out scale aa }

/-! ## imresize (utils.py)

A CHW tensor is a shape together with an entry function; `imresize` is
`Option`-valued, with `none` standing for the torch runtime errors the
source can raise: the hard-coded per-channel loop `out[0], out[1], out[2]`
raises `IndexError` when `C < 3`, and the three symmetric-copy steps
(`narrow`/`copy_` with python negative slicing) raise size-mismatch errors
unless `0 ≤ sym_len_s ≤ len` and `1 ≤ sym_len_e ≤ len` (for `sym_len_e = 0`
the slice `img[:, -0:, :]` grabs the whole axis).  The `mv` window reads are
guarded by the index-window condition (provably true for positive scales,
see `calcWI_index_window`). -/

/-- A `(C, H, W)` tensor of rationals: shape plus entry function. -/
structure T3 where
  C : ℕ
  H : ℕ
  W : ℕ
  val : ℕ → ℕ → ℕ → ℚ

/-- The symmetric-reflection buffer built by the three `narrow`/`copy_`
steps along one axis: positions `0..sS-1` hold the first `sS` input entries
reversed, positions `sS..sS+len-1` copy the input, the final `sE` positions
hold the last `sE` input entries reversed. -/
def mirrorAxis (len sS _sE : ℕ) (f : ℕ → ℚ) (r : ℕ) : ℚ :=
  if r < sS then f (sS - 1 - r)
  else if r < sS + len then f (r - sS)
  else f (len - 1 - (r - (sS + len)))

/-- One separable resize pass along an axis:
`out[i] = Σ_j aug[idx_i + j] * w[i, j]` (the `mv` against weights row `i`,
reading the window of the symmetrically padded buffer that starts at the
row's first index). -/
def resizePass1D (len : ℕ) (wi : WeightsIndices) (f : ℕ → ℚ) (i : ℕ) : ℚ :=
  ∑ j ∈ Finset.range wi.width,
    mirrorAxis len wi.symS.toNat wi.symE.toNat f ((wi.idx i 0).toNat + j) * wi.w i j

/-- The conditions under which the symmetric-copy and window reads along one
axis do not raise: `0 ≤ sym_len_s ≤ len`, `1 ≤ sym_len_e ≤ len`, and every
row's kernel window lies inside the padded buffer. -/
def axisOk (len out : ℕ) (scale : ℚ) (aa : Bool) : Prop :=
  0 ≤ (calcWI len out scale aa).symS ∧ (calcWI len out scale aa).symS ≤ (len : ℤ) ∧
    1 ≤ (calcWI len out scale aa).symE ∧ (calcWI len out scale aa).symE ≤ (len : ℤ) ∧
    ∀ i < out, 0 ≤ (calcWI len out scale aa).idx i 0 ∧
      (calcWI len out scale aa).idx i 0 + (calcWI len out scale aa).width ≤
        (len : ℤ) + (calcWI len out scale aa).symS + (calcWI len out scale aa).symE

instance (len out : ℕ) (scale : ℚ) (aa : Bool) : Decidable (axisOk len out scale aa) := by
  unfold axisOk
  infer_instance

/-- `imresize(img, scale, antialiasing)`: H pass then W pass, channels `0-2`
hard-coded as in the source (entries of channels `3..C-1` of the output
buffer are uninitialized `torch.FloatTensor` memory, modelled as `0`);
`none` models the runtime errors described above.  `out_H = ceil(H*scale)`,
`out_W = ceil(W*scale)`. -/
def imresize (img : T3) (scale : ℚ) (aa : Bool) : Option T3 :=
  if 3 ≤ img.C ∧ axisOk img.H (⌈(img.H : ℚ) * scale⌉).toNat scale aa ∧
      axisOk img.W (⌈(img.W : ℚ) * scale⌉).toNat scale aa then
    some ⟨img.C, (⌈(img.H : ℚ) * scale⌉).toNat, (⌈(img.W : ℚ) * scale⌉).toNat,
      fun c i w =>
        if c < 3 then
          resizePass1D img.W (calcWI img.W (⌈(img.W : ℚ) * scale⌉).toNat scale aa)
            (fun r =>
              resizePass1D img.H (calcWI img.H (⌈(img.H : ℚ) * scale⌉).toNat scale aa)
                (fun rr => img.val c rr r) i) w
        else 0⟩
  else none

/-! ## FocalFrequencyLoss (utils.py)

Embedded over `ℝ`, since the orthonormal 2-D discrete Fourier transform
involves irrational cosines.  A `(N, C, H, W)` float tensor is a shape plus
entry function; the output of `tensor2freq` — patches stacked on a new axis,
then `fft2(norm='ortho')` stacked into a trailing `(real, imag)` pair — is
modelled as a shape `(N, patch_factor², C, patch_h, patch_w)` with two entry
functions for the trailing pair.  The Python `assert`s become an `Except`
error channel: `patchAssert` for the divisibility assert in `tensor2freq`,
and `weightRange min max` for the spectrum-weight invariant assert in
`loss_formulation` (which reports the observed min and max).  Lean's
convention `0 / 0 = 0` plays the role of the explicit
`matrix_tmp[torch.isnan(matrix_tmp)] = 0.0` NaN substitution at
zero-distance locations, and `.min()`/`.max()` of an empty tensor (a torch
error) is modelled as the junk value `0`. -/

/-- A `(N, C, H, W)` tensor of reals. -/
structure T4 where
  N : ℕ
  C : ℕ
  H : ℕ
  W : ℕ
  val : ℕ → ℕ → ℕ → ℕ → ℝ

/-- A stacked frequency representation `(N, P, C, H, W, 2)`: shape plus the
real and imaginary entry functions. -/
structure Freq where
  N : ℕ
  P : ℕ
  C : ℕ
  H : ℕ
  W : ℕ
  re : ℕ → ℕ → ℕ → ℕ → ℕ → ℝ
  im : ℕ → ℕ → ℕ → ℕ → ℕ → ℝ

/-- The constructor configuration of `FocalFrequencyLoss`. -/
structure FFLConfig where
  loss_weight : ℝ
  alpha : ℝ
  patch_factor : ℕ
  ave_spectrum : Bool
  log_matrix : Bool
  batch_matrix : Bool

/-- The two failure modes of the loss: the patch-divisibility assert of
`tensor2freq`, and the weight-range invariant assert of `loss_formulation`
(carrying the observed minimum and maximum). -/
inductive FFLError where
  | patchAssert : FFLError
  | weightRange : ℝ → ℝ → FFLError

/-- Real part of the orthonormal 2-D DFT of an `h × w` patch. -/
noncomputable def dft2re (h w : ℕ) (g : ℕ → ℕ → ℝ) (u v : ℕ) : ℝ :=
  (1 / Real.sqrt ((h : ℝ) * w)) *
    ∑ m ∈ Finset.range h, ∑ n ∈ Finset.range w,
      g m n * Real.cos (2 * Real.pi * ((u : ℝ) * m / h + (v : ℝ) * n / w))

/-- Imaginary part of the orthonormal 2-D DFT of an `h × w` patch. -/
noncomputable def dft2im (h w : ℕ) (g : ℕ → ℕ → ℝ) (u v : ℕ) : ℝ :=
  -(1 / Real.sqrt ((h : ℝ) * w)) *
    ∑ m ∈ Finset.range h, ∑ n ∈ Finset.range w,
      g m n * Real.sin (2 * Real.pi * ((u : ℝ) * m / h + (v : ℝ) * n / w))

/-- The patch crop and transform of `tensor2freq`, after its assert: patch
`k = i * patch_factor + j` covers rows `i*ph..` and columns `j*pw..`. -/
noncomputable def tensor2freqBody (x : T4) (pf : ℕ) : Freq :=
  { N := x.N, P := pf * pf, C := x.C, H := x.H / pf, W := x.W / pf
    re := fun n k c u v =>
      dft2re (x.H / pf) (x.W / pf)
        (fun m q => x.val n c (k / pf * (x.H / pf) + m) (k % pf * (x.W / pf) + q)) u v
    im := fun n k c u v =>
      dft2im (x.H / pf) (x.W / pf)
        (fun m q => x.val n c (k / pf * (x.H / pf) + m) (k % pf * (x.W / pf) + q)) u v }

/-- `tensor2freq`: `assert h % patch_factor == 0 and w % patch_factor == 0`,
then crop and transform. -/
noncomputable def tensor2freq (x : T4) (pf : ℕ) : Option Freq :=
  if x.H % pf = 0 ∧ x.W % pf = 0 then some (tensor2freqBody x pf) else none

/-- Row-major index tuples of a 5-D tensor. -/
def idxList5 (N P C h w : ℕ) : List (ℕ × ℕ × ℕ × ℕ × ℕ) :=
  (List.range N).flatMap fun n => (List.range P).flatMap fun k =>
    (List.range C).flatMap fun c => (List.range h).flatMap fun u =>
      (List.range w).map fun v => (n, k, c, u, v)

/-- `t.min().item()` of a 5-D tensor. -/
noncomputable def wmin (N P C h w : ℕ) (f : ℕ → ℕ → ℕ → ℕ → ℕ → ℝ) : ℝ :=
  (((idxList5 N P C h w).map fun p =>
    f p.1 p.2.1 p.2.2.1 p.2.2.2.1 p.2.2.2.2).minimum).untop' 0

/-- `t.max().item()` of a 5-D tensor. -/
noncomputable def wmax (N P C h w : ℕ) (f : ℕ → ℕ → ℕ → ℕ → ℕ → ℝ) : ℝ :=
  (((idxList5 N P C h w).map fun p =>
    f p.1 p.2.1 p.2.2.1 p.2.2.2.1 p.2.2.2.2).maximum).unbot' 0

/-- Row-major index pairs of a 2-D grid. -/
def idxList2 (h w : ℕ) : List (ℕ × ℕ) :=
  (List.range h).flatMap fun u => (List.range w).map fun v => (u, v)

/-- `t.max(-1).values.max(-1).values` entry: maximum over the two trailing
(frequency) axes. -/
noncomputable def gridMax2 (h w : ℕ) (f : ℕ → ℕ → ℝ) : ℝ :=
  (((idxList2 h w).map fun p => f p.1 p.2).maximum).unbot' 0

/-- The squared Euclidean frequency distance
`(Δre)² + (Δim)²` at one frequency bin. -/
noncomputable def freqDist (rf tf : Freq) (n k c u v : ℕ) : ℝ :=
  (rf.re n k c u v - tf.re n k c u v) ^ 2 + (rf.im n k c u v - tf.im n k c u v) ^ 2

/-- `matrix_tmp = sqrt(ΔΔ) ** alpha` — the online weight before any
adjustment. -/
noncomputable def matrixTmp1 (cfg : FFLConfig) (rf tf : Freq) (n k c u v : ℕ) : ℝ :=
  Real.sqrt (freqDist rf tf n k c u v) ^ cfg.alpha

/-- Optional logarithmic compression of the online weight. -/
noncomputable def matrixTmp2 (cfg : FFLConfig) (rf tf : Freq) (n k c u v : ℕ) : ℝ :=
  if cfg.log_matrix then Real.log (matrixTmp1 cfg rf tf n k c u v + 1)
  else matrixTmp1 cfg rf tf n k c u v

/-- Normalization of the online weight: by the global maximum
(`batch_matrix`) or by the per-`(n, k, c)` maximum over the frequency
axes. -/
noncomputable def matrixTmp3 (cfg : FFLConfig) (rf tf : Freq) (n k c u v : ℕ) : ℝ :=
  if cfg.batch_matrix then
    matrixTmp2 cfg rf tf n k c u v / wmax rf.N rf.P rf.C rf.H rf.W (matrixTmp2 cfg rf tf)
  else
    matrixTmp2 cfg rf tf n k c u v /
      gridMax2 rf.H rf.W (fun u2 v2 => matrixTmp2 cfg rf tf n k c u2 v2)

/-- The final online spectrum weight: NaNs from `0 / 0` replaced by `0`
(Lean's division convention) and the value clamped to `[0, 1]`. -/
noncomputable def onlineWeight (cfg : FFLConfig) (rf tf : Freq) (n k c u v : ℕ) : ℝ :=
  max 0 (min (matrixTmp3 cfg rf tf n k c u v) 1)

/-- `torch.mean(weight * distance)` over all elements. -/
noncomputable def fflLossValue (rf tf : Freq) (wm : ℕ → ℕ → ℕ → ℕ → ℕ → ℝ) : ℝ :=
  (∑ n ∈ Finset.range rf.N, ∑ k ∈ Finset.range rf.P, ∑ c ∈ Finset.range rf.C,
    ∑ u ∈ Finset.range rf.H, ∑ v ∈ Finset.range rf.W,
      wm n k c u v * freqDist rf tf n k c u v) /
    ((rf.N : ℝ) * rf.P * rf.C * rf.H * rf.W)

/-- The spectrum weight used by `loss_formulation`: the externally supplied
matrix verbatim (detached) when given, else the online weight. -/
noncomputable def weightOf (cfg : FFLConfig) (rf tf : Freq)
    (matrix : Option (ℕ → ℕ → ℕ → ℕ → ℕ → ℝ)) : ℕ → ℕ → ℕ → ℕ → ℕ → ℝ :=
  matrix.getD (onlineWeight cfg rf tf)

open scoped Classical in
/-- `loss_formulation`: use the supplied matrix verbatim or compute the
online one, assert its values lie in `[0, 1]` (failing with the observed
min and max), and return the weighted mean distance. -/
noncomputable def loss_formulation (cfg : FFLConfig) (rf tf : Freq)
    (matrix : Option (ℕ → ℕ → ℕ → ℕ → ℕ → ℝ)) : Except FFLError ℝ :=
  if 0 ≤ wmin rf.N rf.P rf.C rf.H rf.W (weightOf cfg rf tf matrix) ∧
      wmax rf.N rf.P rf.C rf.H rf.W (weightOf cfg rf tf matrix) ≤ 1 then
    Except.ok (fflLossValue rf tf (weightOf cfg rf tf matrix))
  else
    Except.error
      (FFLError.weightRange (wmin rf.N rf.P rf.C rf.H rf.W (weightOf cfg rf tf matrix))
        (wmax rf.N rf.P rf.C rf.H rf.W (weightOf cfg rf tf matrix)))

/-- `torch.mean(freq, 0, keepdim=True)` — the minibatch average spectrum. -/
noncomputable def batchMean (f : Freq) : Freq :=
  { N := 1, P := f.P, C := f.C, H := f.H, W := f.W
    re := fun _ k c u v => (∑ n ∈ Finset.range f.N, f.re n k c u v) / f.N
    im := fun _ k c u v => (∑ n ∈ Finset.range f.N, f.im n k c u v) / f.N }

/-- The optional `ave_spectrum` reduction applied in `forward`. -/
noncomputable def aveOpt (cfg : FFLConfig) (f : Freq) : Freq :=
  if cfg.ave_spectrum then batchMean f else f

/-- The final `* self.loss_weight` scaling, threaded through the error
channel. -/
noncomputable def scaleResult (lw : ℝ) : Except FFLError ℝ → Except FFLError ℝ
  | Except.ok l => Except.ok (l * lw)
  | Except.error e => Except.error e

/-- `FocalFrequencyLoss.forward(pred, target, matrix)`: frequency transforms
(with their asserts), optional batch averaging, loss formulation, final
`loss_weight` scaling. -/
noncomputable def fflForward (cfg : FFLConfig) (pred target : T4)
    (matrix : Option (ℕ → ℕ → ℕ → ℕ → ℕ → ℝ)) : Except FFLError ℝ :=
  match tensor2freq pred cfg.patch_factor, tensor2freq target cfg.patch_factor with
  | some pfq, some tfq =>
    scaleResult cfg.loss_weight (loss_formulation cfg (aveOpt cfg pfq) (aveOpt cfg tfq) matrix)
  | _, _ => Except.error FFLError.patchAssert

end RGB2HSI

namespace RGB2HSI

/-! ## Theorems: PatchGenerator -/

/-- Membership in `next_patch` is exactly `patchAt` at an in-range grid
position. -/
theorem mem_next_patch_iff {H W ps pad : ℕ} {d : PatchDesc} :
    d ∈ next_patch H W ps pad ↔
      ∃ i j, i < (blockNum H ps pad).toNat ∧ j < (blockNum W ps pad).toNat ∧
        d = patchAt H W ps pad i j := by
  simp only [next_patch, List.mem_flatMap, List.mem_map, List.mem_range]
  constructor
  · rintro ⟨i, hi, j, hj, rfl⟩
    exact ⟨i, j, hi, hj, rfl⟩
  · rintro ⟨i, j, hi, hj, rfl⟩
    exact ⟨i, hi, j, hj, rfl⟩

/-- C3 (counterexample): with `H = W = 10`, `patchSize = 10`, `padding = 2`
each axis has exactly one tile, which is simultaneously first and last, yet
the single yielded descriptor carries bottom and right padding `2`, not `0`:
the claim that both paddings of a single-tile axis are `0` fails. -/
theorem next_patch_single_tile_cex :
    blockNum 10 10 2 = 1 ∧
      ¬ ∀ d ∈ next_patch 10 10 10 2, d.bottom = 0 ∧ d.right = 0 := by
  have hb : blockNum 10 10 2 = 1 := by
    have : ((10 : ℚ) - 2 * 2) / ((10 : ℚ) - 2 * 2) = 1 := by norm_num
    rw [blockNum]
    push_cast
    rw [this]
    exact Int.ceil_one
  refine ⟨hb, fun hall => ?_⟩
  have hmem : patchAt 10 10 10 2 0 0 ∈ next_patch 10 10 10 2 := by
    rw [mem_next_patch_iff]
    exact ⟨0, 0, by rw [hb]; norm_num, by rw [hb]; norm_num, rfl⟩
  have h2 := (hall _ hmem).1
  simp [patchAt] at h2

/-- Cast of the block count: for `2*pad < ps ≤ len` the ceiling is at least
`1`, so `toNat` is the identity on it. -/
theorem blockNum_cast (len ps pad : ℕ) (hpp : 2 * pad < ps) (hlen : ps ≤ len) :
    (((blockNum len ps pad).toNat : ℤ) = blockNum len ps pad) ∧ 1 ≤ blockNum len ps pad := by
  have hd : (0 : ℚ) < (ps : ℚ) - 2 * pad := by
    have : (2 * pad : ℚ) < ps := by exact_mod_cast hpp
    linarith
  have hq : (1 : ℚ) ≤ ((len : ℚ) - 2 * pad) / ((ps : ℚ) - 2 * pad) := by
    rw [le_div_iff₀ hd]
    have : (ps : ℚ) ≤ len := by exact_mod_cast hlen
    linarith
  have h1 : 1 ≤ blockNum len ps pad := by
    have := Int.le_ceil (((len : ℚ) - 2 * pad) / ((ps : ℚ) - 2 * pad))
    have : (1 : ℚ) ≤ (blockNum len ps pad : ℚ) := le_trans hq this
    exact_mod_cast this
  exact ⟨Int.toNat_of_nonneg (le_trans zero_le_one h1), h1⟩

/-- Middle-tile offsets stay strictly below `len - ps`: if `i + 2` is at most
the block count, then `i * (ps - 2*pad) < len - ps`. -/
theorem tile_offset_lt (len ps pad : ℕ) (hpp : 2 * pad < ps) (hlen : ps ≤ len)
    (i : ℕ) (hi : i + 2 ≤ (blockNum len ps pad).toNat) :
    (i : ℤ) * ((ps : ℤ) - 2 * pad) < (len : ℤ) - ps := by
  obtain ⟨hcast, -⟩ := blockNum_cast len ps pad hpp hlen
  have hd : (0 : ℚ) < (ps : ℚ) - 2 * pad := by
    have : (2 * pad : ℚ) < ps := by exact_mod_cast hpp
    linarith
  set q : ℚ := ((len : ℚ) - 2 * pad) / ((ps : ℚ) - 2 * pad) with hq
  have hceil : blockNum len ps pad = ⌈q⌉ := rfl
  have hlt : (⌈q⌉ : ℚ) < q + 1 := by exact_mod_cast Int.ceil_lt_add_one q
  have hiq : (i : ℚ) + 2 ≤ ((blockNum len ps pad).toNat : ℚ) := by exact_mod_cast hi
  have hiq2 : (i : ℚ) + 2 ≤ (⌈q⌉ : ℚ) := by
    rw [← hceil]
    calc (i : ℚ) + 2 ≤ ((blockNum len ps pad).toNat : ℚ) := hiq
    _ = ((((blockNum len ps pad).toNat : ℤ)) : ℚ) := by push_cast; ring
    _ = ((blockNum len ps pad : ℤ) : ℚ) := by rw [hcast]
  have hi_lt : (i : ℚ) < q - 1 := by linarith
  have hmul : (i : ℚ) * ((ps : ℚ) - 2 * pad) < (q - 1) * ((ps : ℚ) - 2 * pad) :=
    mul_lt_mul_of_pos_right hi_lt hd
  have hqd : q * ((ps : ℚ) - 2 * pad) = (len : ℚ) - 2 * pad :=
    div_mul_cancel₀ _ (ne_of_gt hd)
  have : (i : ℚ) * ((ps : ℚ) - 2 * pad) < (len : ℚ) - ps := by
    have := hmul
    rw [sub_mul, hqd, one_mul] at this
    linarith
  exact_mod_cast this

/-- C3 (amended): every descriptor yielded by `next_patch` is `patchAt` at an
in-range grid position, and its paddings are the nominal `padding` on every
side except that the start side of a first tile has padding `0`, and the end
side of a last tile has padding `0` only when that tile is not also the
first tile of its axis (a single-tile axis keeps the nominal padding on its
end side). -/
theorem next_patch_padding (H W ps pad : ℕ) (_hps : 2 * pad ≠ ps) :
    ∀ d ∈ next_patch H W ps pad, ∃ i j,
      i < (blockNum H ps pad).toNat ∧ j < (blockNum W ps pad).toNat ∧
      d = patchAt H W ps pad i j ∧
      d.top = (if i = 0 then 0 else pad) ∧
      d.bottom = (if i ≠ 0 ∧ i = (blockNum H ps pad).toNat - 1 then 0 else pad) ∧
      d.left = (if j = 0 then 0 else pad) ∧
      d.right = (if j ≠ 0 ∧ j = (blockNum W ps pad).toNat - 1 then 0 else pad) := by
  intro d hd
  obtain ⟨i, j, hi, hj, rfl⟩ := mem_next_patch_iff.mp hd
  exact ⟨i, j, hi, hj, rfl, rfl, rfl, rfl, rfl⟩

/-- C3 (witness): the amended padding statement at `H = W = 64`,
`patchSize = 48`, `padding = 16`. -/
theorem next_patch_padding_witness :
    2 * 16 ≠ 48 ∧
      ∀ d ∈ next_patch 64 64 48 16, ∃ i j,
        i < (blockNum 64 48 16).toNat ∧ j < (blockNum 64 48 16).toNat ∧
        d = patchAt 64 64 48 16 i j ∧
        d.top = (if i = 0 then 0 else 16) ∧
        d.bottom = (if i ≠ 0 ∧ i = (blockNum 64 48 16).toNat - 1 then 0 else 16) ∧
        d.left = (if j = 0 then 0 else 16) ∧
        d.right = (if j ≠ 0 ∧ j = (blockNum 64 48 16).toNat - 1 then 0 else 16) :=
  ⟨by decide, next_patch_padding 64 64 48 16 (by decide)⟩

/-- C10: when `2*padding < patchSize ≤ min(H, W)`, every yielded descriptor's
offsets satisfy `0 ≤ h ≤ H - patchSize` and `0 ≤ w ≤ W - patchSize`, so every
planned patch lies inside the image. -/
theorem next_patch_offsets_in_bounds (H W ps pad : ℕ)
    (hpp : 2 * pad < ps) (hH : ps ≤ H) (hW : ps ≤ W) :
    ∀ d ∈ next_patch H W ps pad,
      0 ≤ d.h ∧ d.h ≤ (H : ℤ) - ps ∧ 0 ≤ d.w ∧ d.w ≤ (W : ℤ) - ps := by
  intro d hd
  obtain ⟨i, j, hi, hj, rfl⟩ := mem_next_patch_iff.mp hd
  have key : ∀ len : ℕ, ps ≤ len → ∀ k : ℕ, k < (blockNum len ps pad).toNat →
      (0 : ℤ) ≤ (if k = 0 then 0 else if k = (blockNum len ps pad).toNat - 1
          then (len : ℤ) - ps else (k : ℤ) * ((ps : ℤ) - 2 * pad)) ∧
        (if k = 0 then 0 else if k = (blockNum len ps pad).toNat - 1
          then (len : ℤ) - ps else (k : ℤ) * ((ps : ℤ) - 2 * pad)) ≤ (len : ℤ) - ps := by
    intro len hlen k hk
    have hle : (0 : ℤ) ≤ (len : ℤ) - ps := by
      have : (ps : ℤ) ≤ len := by exact_mod_cast hlen
      linarith
    by_cases hk0 : k = 0
    · simp [hk0, hle]
    · by_cases hklast : k = (blockNum len ps pad).toNat - 1
      · have hz : (blockNum len ps pad).toNat - 1 ≠ 0 := by
          intro h0
          exact hk0 (by omega)
        simp [hk0, hklast, hz, hle]
      · have hk2 : k + 2 ≤ (blockNum len ps pad).toNat := by omega
        have hlt := tile_offset_lt len ps pad hpp hlen k hk2
        have hdpos : (0 : ℤ) < (ps : ℤ) - 2 * pad := by
          have : (2 * pad : ℤ) < ps := by exact_mod_cast hpp
          linarith
        have hnn : (0 : ℤ) ≤ (k : ℤ) * ((ps : ℤ) - 2 * pad) :=
          mul_nonneg (Int.natCast_nonneg k) (le_of_lt hdpos)
        simp only [hk0, hklast, if_false]
        exact ⟨hnn, le_of_lt hlt⟩
  have hkh := key H hH i hi
  have hkw := key W hW j hj
  simpa [patchAt] using ⟨hkh.1, hkh.2, hkw.1, hkw.2⟩

/-- C10 (witness): the bounds at `H = W = 64`, `patchSize = 48`,
`padding = 16`. -/
theorem next_patch_offsets_in_bounds_witness :
    2 * 16 < 48 ∧ 48 ≤ 64 ∧
      ∀ d ∈ next_patch 64 64 48 16,
        0 ≤ d.h ∧ d.h ≤ (64 : ℤ) - 48 ∧ 0 ≤ d.w ∧ d.w ≤ (64 : ℤ) - 48 :=
  ⟨by decide, by decide,
    next_patch_offsets_in_bounds 64 64 48 16 (by decide) (by decide) (by decide)⟩

/-! ## Lemmas: the bicubic kernel -/

/-- `cubic` vanishes outside the support `[-2, 2]`. -/
theorem cubic_of_two_le {x : ℚ} (h : 2 ≤ |x|) : cubic x = 0 := by
  rcases eq_or_lt_of_le h with h2 | h2
  · have hn : ¬|x| ≤ 1 := by rw [← h2]; norm_num
    have hp : 1 < |x| ∧ |x| ≤ 2 := by rw [← h2]; norm_num
    rw [cubic, if_neg hn, if_pos hp, ← h2]
    ring
  · have hn : ¬|x| ≤ 1 := by linarith
    have hn2 : ¬(1 < |x| ∧ |x| ≤ 2) := by
      rintro ⟨-, hh⟩
      linarith
    rw [cubic, if_neg hn, if_neg hn2]
    ring

/-- On `[-1, 1]` the kernel is its first branch polynomial. -/
theorem cubic_of_le_one {x : ℚ} (h : |x| ≤ 1) :
    cubic x = (3 / 2) * |x| ^ 3 - (5 / 2) * |x| ^ 2 + 1 := by
  have hn2 : ¬(1 < |x| ∧ |x| ≤ 2) := by
    rintro ⟨h1, -⟩
    linarith
  rw [cubic, if_pos h, if_neg hn2]
  ring

/-- On `1 ≤ |x| ≤ 2` the kernel equals its second branch polynomial (the two
branches agree — both vanish — at `|x| = 1`). -/
theorem cubic_of_one_le_le_two {x : ℚ} (h1 : 1 ≤ |x|) (h2 : |x| ≤ 2) :
    cubic x = (-1 / 2) * |x| ^ 3 + (5 / 2) * |x| ^ 2 - 4 * |x| + 2 := by
  rcases eq_or_lt_of_le h1 with he | hl
  · rw [cubic, if_pos he.symm.le, if_neg (by rintro ⟨hh, -⟩; rw [← he] at hh; exact lt_irrefl _ hh),
      ← he]
    ring
  · rw [cubic, if_neg (not_le.mpr hl), if_pos ⟨hl, h2⟩]
    ring

/-- The kernel is nonnegative on `[-1, 1]`. -/
theorem cubic_nonneg_of_le_one {x : ℚ} (h : |x| ≤ 1) : 0 ≤ cubic x := by
  rw [cubic_of_le_one h]
  have h0 : 0 ≤ |x| := abs_nonneg x
  nlinarith [sq_nonneg (|x| - 1), sq_nonneg |x|, mul_nonneg h0 (sq_nonneg (1 - |x|))]

/-- The kernel is at least `9/16` on `[-1/2, 1/2]`. -/
theorem cubic_ge_of_le_half {x : ℚ} (h : |x| ≤ 1 / 2) : 9 / 16 ≤ cubic x := by
  rw [cubic_of_le_one (le_trans h (by norm_num))]
  have h0 : 0 ≤ |x| := abs_nonneg x
  nlinarith [mul_nonneg (mul_nonneg h0 h0) h0, sq_nonneg (1 / 2 - |x|),
    mul_nonneg h0 (sub_nonneg.mpr h)]

/-- The kernel is at least `-2/27` on its negative lobes `1 ≤ |x| ≤ 2`. -/
theorem cubic_ge_neg_lobe {x : ℚ} (h1 : 1 ≤ |x|) (h2 : |x| ≤ 2) :
    -2 / 27 ≤ cubic x := by
  rw [cubic_of_one_le_le_two h1 h2]
  nlinarith [sq_nonneg (|x| - 4 / 3), mul_nonneg (sq_nonneg (|x| - 4 / 3)) (by linarith : (0 : ℚ) ≤ 7 / 3 - |x|)]

/-! ## Lemmas: calculate_weights_indices structure -/

/-- The kernel width is at least `4` for positive scales. -/
theorem kwidth_ge_four {scale : ℚ} (hs : 0 < scale) (aa : Bool) :
    4 ≤ kwidth scale aa := by
  rw [kwidth]
  split_ifs with h
  · rcases h with ⟨hlt, -⟩
    rw [le_div_iff₀ hs]
    nlinarith
  · exact le_refl 4

/-- `P = ceil(kernel_width) + 2` is at least `6`, and `Pnat` casts back. -/
theorem Pnat_facts {scale : ℚ} (hs : 0 < scale) (aa : Bool) :
    ((Pnat scale aa : ℤ) = ⌈kwidth scale aa⌉ + 2) ∧ 6 ≤ Pnat scale aa := by
  have h4 : (4 : ℚ) ≤ kwidth scale aa := kwidth_ge_four hs aa
  have hc : (4 : ℤ) ≤ ⌈kwidth scale aa⌉ := by
    have := Int.le_ceil (kwidth scale aa)
    have h4' : (4 : ℚ) ≤ (⌈kwidth scale aa⌉ : ℚ) := le_trans h4 this
    exact_mod_cast h4'
  constructor
  · rw [Pnat, Int.toNat_of_nonneg (by omega)]
  · have : (6 : ℤ) ≤ ⌈kwidth scale aa⌉ + 2 := by omega
    rw [Pnat]
    omega

/-- Floor bounds: the distance from `u` to the leftmost tap lies in
`[kw/2, kw/2 + 1)`. -/
theorem dist_left_bounds (scale : ℚ) (aa : Bool) (i : ℕ) :
    kwidth scale aa / 2 ≤ uCoord scale i - leftIdx scale aa i ∧
      uCoord scale i - leftIdx scale aa i < kwidth scale aa / 2 + 1 := by
  have h1 := Int.floor_le (uCoord scale i - kwidth scale aa / 2)
  have h2 := Int.lt_floor_add_one (uCoord scale i - kwidth scale aa / 2)
  rw [leftIdx]
  constructor <;> linarith

/-- The first candidate column always carries weight zero: the distance to
the leftmost tap is at least half the kernel width, i.e. at least `2`
kernel-argument units. -/
theorem wRaw_first_zero {scale : ℚ} (hs : 0 < scale) (aa : Bool) (i : ℕ) :
    wRaw scale aa i 0 = 0 := by
  have hb := (dist_left_bounds scale aa i).1
  have h4 := kwidth_ge_four hs aa
  rw [wRaw]
  split_ifs with h
  · rcases h with ⟨hlt, haa⟩
    have harg : 2 ≤ (uCoord scale i - (leftIdx scale aa i + (0 : ℕ))) * scale := by
      push_cast
      have : kwidth scale aa = 4 / scale := by
        rw [kwidth]
        exact if_pos ⟨hlt, haa⟩
      rw [this] at hb
      have h2 : 2 / scale ≤ uCoord scale i - leftIdx scale aa i := by
        have : 4 / scale / 2 = 2 / scale := by ring
        linarith [this ▸ hb]
      calc (2 : ℚ) = 2 / scale * scale := (div_mul_cancel₀ 2 (ne_of_gt hs)).symm
      _ ≤ (uCoord scale i - leftIdx scale aa i) * scale :=
          mul_le_mul_of_nonneg_right h2 (le_of_lt hs)
      _ = (uCoord scale i - (leftIdx scale aa i + 0)) * scale := by ring
    rw [cubic_of_two_le (le_trans harg (le_abs_self _))]
    ring
  · have harg : 2 ≤ uCoord scale i - (leftIdx scale aa i + (0 : ℕ)) := by
      push_cast
      linarith
    rw [cubic_of_two_le (le_trans harg (le_abs_self _))]

/-- The last candidate column always carries weight zero: the distance to
the rightmost tap is below `-2` kernel-argument units. -/
theorem wRaw_last_zero {scale : ℚ} (hs : 0 < scale) (aa : Bool) (i : ℕ) :
    wRaw scale aa i (Pnat scale aa - 1) = 0 := by
  obtain ⟨hcast, h6⟩ := Pnat_facts hs aa
  have hb := (dist_left_bounds scale aa i).2
  have h4 := kwidth_ge_four hs aa
  have hkc : kwidth scale aa + 1 ≤ ((Pnat scale aa - 1 : ℕ) : ℚ) := by
    have h1 : ((Pnat scale aa - 1 : ℕ) : ℤ) = ⌈kwidth scale aa⌉ + 1 := by omega
    have h2 : kwidth scale aa ≤ (⌈kwidth scale aa⌉ : ℚ) := Int.le_ceil _
    have h3 : ((Pnat scale aa - 1 : ℕ) : ℚ) = ((⌈kwidth scale aa⌉ : ℤ) : ℚ) + 1 := by
      exact_mod_cast congrArg (fun z : ℤ => (z : ℚ)) h1
    rw [h3]
    linarith
  have hdist : uCoord scale i - (leftIdx scale aa i + ((Pnat scale aa - 1 : ℕ) : ℚ)) ≤
      -(kwidth scale aa / 2) := by linarith
  have hk2 : 2 ≤ kwidth scale aa / 2 := by linarith
  rw [wRaw]
  split_ifs with h
  · rcases h with ⟨hlt, haa⟩
    have hkw : kwidth scale aa = 4 / scale := by
      rw [kwidth]
      exact if_pos ⟨hlt, haa⟩
    have harg : (uCoord scale i - (leftIdx scale aa i + ((Pnat scale aa - 1 : ℕ) : ℚ))) * scale ≤
        -2 := by
      have hhalf : -(kwidth scale aa / 2) * scale = -2 := by
        rw [hkw]
        field_simp
        ring
      calc (uCoord scale i - (leftIdx scale aa i + ((Pnat scale aa - 1 : ℕ) : ℚ))) * scale
          ≤ -(kwidth scale aa / 2) * scale := mul_le_mul_of_nonneg_right hdist (le_of_lt hs)
      _ = -2 := hhalf
    have : 2 ≤ |(uCoord scale i - (leftIdx scale aa i + ((Pnat scale aa - 1 : ℕ) : ℚ))) * scale| := by
      have := neg_le_abs ((uCoord scale i - (leftIdx scale aa i + ((Pnat scale aa - 1 : ℕ) : ℚ))) * scale)
      linarith
    rw [cubic_of_two_le this]
    ring
  · have harg : uCoord scale i - (leftIdx scale aa i + ((Pnat scale aa - 1 : ℕ) : ℚ)) ≤ -2 := by
      linarith
    have : 2 ≤ |uCoord scale i - (leftIdx scale aa i + ((Pnat scale aa - 1 : ℕ) : ℚ))| := by
      have := neg_le_abs (uCoord scale i - (leftIdx scale aa i + ((Pnat scale aa - 1 : ℕ) : ℚ)))
      linarith
    rw [cubic_of_two_le this]

/-- The normalized first column is zero in every row. -/
theorem wNorm_first_zero {scale : ℚ} (hs : 0 < scale) (aa : Bool) (i : ℕ) :
    wNorm scale aa i 0 = 0 := by
  rw [wNorm, wRaw_first_zero hs aa i, zero_div]

/-- The normalized last column is zero in every row. -/
theorem wNorm_last_zero {scale : ℚ} (hs : 0 < scale) (aa : Bool) (i : ℕ) :
    wNorm scale aa i (Pnat scale aa - 1) = 0 := by
  rw [wNorm, wRaw_last_zero hs aa i, zero_div]

/-- The first-column prune condition always fires (for a nonempty output). -/
theorem pruneFirst_true {out : ℕ} {scale : ℚ} (hout : 1 ≤ out) (hs : 0 < scale) (aa : Bool) :
    pruneFirst out scale aa = true := by
  simp only [pruneFirst, decide_eq_true_eq]
  exact ⟨0, Finset.mem_range.mpr hout, wNorm_first_zero hs aa 0⟩

/-- The last-column prune condition always fires (for a nonempty output). -/
theorem pruneLast_true {out : ℕ} {scale : ℚ} (hout : 1 ≤ out) (hs : 0 < scale) (aa : Bool) :
    pruneLast out scale aa = true := by
  simp only [pruneLast, decide_eq_true_eq]
  exact ⟨0, Finset.mem_range.mpr hout, wNorm_last_zero hs aa 0⟩

/-- Both narrows fire, so the kept columns are `1 .. P-2`. -/
theorem colLo_eq_one {out : ℕ} {scale : ℚ} (hout : 1 ≤ out) (hs : 0 < scale) (aa : Bool) :
    colLo out scale aa = 1 := by
  rw [colLo, pruneFirst_true hout hs aa]
  rfl

/-- The final kernel support is `P - 2`. -/
theorem finalWidth_eq {out : ℕ} {scale : ℚ} (hout : 1 ≤ out) (hs : 0 < scale) (aa : Bool) :
    finalWidth out scale aa = Pnat scale aa - 2 := by
  rw [finalWidth, pruneFirst_true hout hs aa]
  simp

/-- The final kernel support is at least `4`. -/
theorem finalWidth_ge_four {out : ℕ} {scale : ℚ} (hout : 1 ≤ out) (hs : 0 < scale) (aa : Bool) :
    4 ≤ finalWidth out scale aa := by
  have h6 := (Pnat_facts hs aa).2
  rw [finalWidth_eq hout hs aa]
  omega

/-- A nonempty list in a linear order attains its `minimum.untop' 0` and it
bounds every member from below. -/
theorem list_minimum_spec {α : Type} [LinearOrder α] [Zero α] (l : List α) (h : l ≠ []) :
    l.minimum.untop' 0 ∈ l ∧ ∀ v ∈ l, l.minimum.untop' 0 ≤ v := by
  cases hmin : l.minimum with
  | top => exact absurd (List.minimum_eq_top.mp hmin) h
  | coe m =>
    rw [WithTop.untop'_coe]
    refine ⟨List.minimum_mem hmin, fun v hv => ?_⟩
    have := List.minimum_le_of_mem' hv
    rw [hmin] at this
    exact_mod_cast this

/-- A nonempty list in a linear order attains its `maximum.unbot' 0` and it
bounds every member from above. -/
theorem list_maximum_spec {α : Type} [LinearOrder α] [Zero α] (l : List α) (h : l ≠ []) :
    l.maximum.unbot' 0 ∈ l ∧ ∀ v ∈ l, v ≤ l.maximum.unbot' 0 := by
  cases hmax : l.maximum with
  | bot => exact absurd (List.maximum_eq_bot.mp hmax) h
  | coe m =>
    rw [WithBot.unbot'_coe]
    refine ⟨List.maximum_mem hmax, fun v hv => ?_⟩
    have := List.le_maximum_of_mem' hv
    rw [hmax] at this
    exact_mod_cast this

/-- Index-matrix entries as members of `idxList`. -/
theorem mem_idxList {out : ℕ} {scale : ℚ} {aa : Bool} {i j : ℕ}
    (hi : i < out) (hj : j < finalWidth out scale aa) :
    idxPre out scale aa i j ∈ idxList out scale aa := by
  simp only [idxList, List.mem_flatMap, List.mem_map, List.mem_range]
  exact ⟨i, hi, j, hj, rfl⟩

/-- Members of `idxList` are index-matrix entries. -/
theorem mem_idxList_elim {out : ℕ} {scale : ℚ} {aa : Bool} {v : ℤ}
    (hv : v ∈ idxList out scale aa) :
    ∃ i < out, ∃ j < finalWidth out scale aa, v = idxPre out scale aa i j := by
  simp only [idxList, List.mem_flatMap, List.mem_map, List.mem_range] at hv
  obtain ⟨i, hi, j, hj, rfl⟩ := hv
  exact ⟨i, hi, j, hj, rfl⟩

/-- The index list is nonempty when `out ≥ 1`. -/
theorem idxList_ne_nil {out : ℕ} {scale : ℚ} (hout : 1 ≤ out) (hs : 0 < scale) (aa : Bool) :
    idxList out scale aa ≠ [] := by
  intro hnil
  have hw : 0 < finalWidth out scale aa := lt_of_lt_of_le (by norm_num)
    (finalWidth_ge_four hout hs aa)
  have := @mem_idxList out scale aa 0 0 hout hw
  rw [hnil] at this
  exact List.not_mem_nil _ this

/-- The minimum of the pruned index matrix is attained and bounds all
entries. -/
theorem minIdx_spec {out : ℕ} {scale : ℚ} (hout : 1 ≤ out) (hs : 0 < scale) (aa : Bool) :
    (∃ i < out, ∃ j < finalWidth out scale aa, idxPre out scale aa i j = minIdx out scale aa) ∧
      ∀ i < out, ∀ j < finalWidth out scale aa, minIdx out scale aa ≤ idxPre out scale aa i j := by
  obtain ⟨hmem, hle⟩ := list_minimum_spec (idxList out scale aa) (idxList_ne_nil hout hs aa)
  constructor
  · obtain ⟨i, hi, j, hj, hv⟩ := mem_idxList_elim hmem
    exact ⟨i, hi, j, hj, hv.symm⟩
  · intro i hi j hj
    exact hle _ (mem_idxList hi hj)

/-- The maximum of the pruned index matrix bounds all entries. -/
theorem maxIdx_spec {out : ℕ} {scale : ℚ} (hout : 1 ≤ out) (hs : 0 < scale) (aa : Bool) :
    ∀ i < out, ∀ j < finalWidth out scale aa, idxPre out scale aa i j ≤ maxIdx out scale aa := by
  obtain ⟨-, hge⟩ := list_maximum_spec (idxList out scale aa) (idxList_ne_nil hout hs aa)
  intro i hi j hj
  exact hge _ (mem_idxList hi hj)

/-- C9: after the symmetric shift, the smallest entry of the returned index
matrix is `0` (all entries are nonnegative and some entry is `0`), and for
every output row the kernel window starting at that row's first index and
extending `width` positions lies inside the symmetrically padded buffer of
length `in_length + sym_len_s + sym_len_e`. -/
theorem calcWI_index_window (inLen out : ℕ) (scale : ℚ) (aa : Bool)
    (_hin : 1 ≤ inLen) (hout : 1 ≤ out) (hs : 0 < scale) :
    (∀ i < out, ∀ j < (calcWI inLen out scale aa).width,
        0 ≤ (calcWI inLen out scale aa).idx i j) ∧
      (∃ i < out, ∃ j < (calcWI inLen out scale aa).width,
        (calcWI inLen out scale aa).idx i j = 0) ∧
      ∀ i < out,
        0 ≤ (calcWI inLen out scale aa).idx i 0 ∧
          (calcWI inLen out scale aa).idx i 0 + (calcWI inLen out scale aa).width ≤
            (inLen : ℤ) + (calcWI inLen out scale aa).symS + (calcWI inLen out scale aa).symE := by
  obtain ⟨⟨i0, hi0, j0, hj0, hmineq⟩, hminle⟩ := minIdx_spec hout hs aa
  have hmaxge := maxIdx_spec hout hs aa
  have hw4 : 4 ≤ finalWidth out scale aa := finalWidth_ge_four hout hs aa
  have hidx : ∀ i j : ℕ, (calcWI inLen out scale aa).idx i j =
      idxPre out scale aa i j - minIdx out scale aa := by
    intro i j
    show idxPre out scale aa i j + symS out scale aa - 1 = _
    rw [symS]
    ring
  have hnonneg : ∀ i < out, ∀ j < (calcWI inLen out scale aa).width,
      0 ≤ (calcWI inLen out scale aa).idx i j := by
    intro i hi j hj
    rw [hidx]
    have := hminle i hi j hj
    omega
  refine ⟨hnonneg, ⟨i0, hi0, j0, hj0, ?_⟩, ?_⟩
  · rw [hidx, hmineq]
    ring
  · intro i hi
    have h0w : 0 < (calcWI inLen out scale aa).width := by
      show 0 < finalWidth out scale aa
      omega
    refine ⟨hnonneg i hi 0 h0w, ?_⟩
    have hstep : idxPre out scale aa i (finalWidth out scale aa - 1) =
        idxPre out scale aa i 0 + ((finalWidth out scale aa : ℤ) - 1) := by
      simp only [idxPre]
      push_cast [Nat.cast_sub (by omega : 1 ≤ finalWidth out scale aa)]
      ring
    have hlast := hmaxge i hi (finalWidth out scale aa - 1) (by omega)
    rw [hstep] at hlast
    have hsyms : (calcWI inLen out scale aa).symS = -minIdx out scale aa + 1 := rfl
    have hsyme : (calcWI inLen out scale aa).symE = maxIdx out scale aa - inLen := rfl
    rw [hidx, hsyms, hsyme]
    show idxPre out scale aa i 0 - minIdx out scale aa + (finalWidth out scale aa : ℤ) ≤ _
    omega

/-- C9 (witness): the index-window invariant at `in_length = 4`,
`out_length = 2`, `scale = 1/2`, antialiasing on. -/
theorem calcWI_index_window_witness :
    (0 : ℚ) < 1 / 2 ∧
      ∀ i < 2,
        0 ≤ (calcWI 4 2 (1 / 2) true).idx i 0 ∧
          (calcWI 4 2 (1 / 2) true).idx i 0 + (calcWI 4 2 (1 / 2) true).width ≤
            (4 : ℤ) + (calcWI 4 2 (1 / 2) true).symS + (calcWI 4 2 (1 / 2) true).symE :=
  ⟨by norm_num,
    (calcWI_index_window 4 2 (1 / 2) true (by norm_num) (by norm_num) (by norm_num)).2.2⟩

/-! ## Lemmas: row sums of the weights matrix -/

/-- Partition of unity for the bicubic kernel: the six consecutive taps
covering the support sum to exactly `1` (`t` is the fractional position of
`u` above `left + 2`). -/
theorem cubic_window_sum {t : ℚ} (h0 : 0 ≤ t) (h1 : t < 1) :
    cubic (t + 2) + cubic (t + 1) + cubic t + cubic (t - 1) + cubic (t - 2) +
      cubic (t - 3) = 1 := by
  have e2 : cubic (t + 2) = 0 := cubic_of_two_le (by rw [abs_of_nonneg (by linarith)]; linarith)
  have e5 : cubic (t - 3) = 0 := cubic_of_two_le (by
    rw [abs_of_nonpos (by linarith)]
    linarith)
  have a1 : |t + 1| = t + 1 := abs_of_nonneg (by linarith)
  have a0 : |t| = t := abs_of_nonneg h0
  have am1 : |t - 1| = 1 - t := by rw [abs_of_nonpos (by linarith)]; ring
  have am2 : |t - 2| = 2 - t := by rw [abs_of_nonpos (by linarith)]; ring
  have e1 : cubic (t + 1) = (-1 / 2) * (t + 1) ^ 3 + (5 / 2) * (t + 1) ^ 2 - 4 * (t + 1) + 2 := by
    rw [cubic_of_one_le_le_two (by rw [a1]; linarith) (by rw [a1]; linarith), a1]
  have e0 : cubic t = (3 / 2) * t ^ 3 - (5 / 2) * t ^ 2 + 1 := by
    rw [cubic_of_le_one (by rw [a0]; linarith), a0]
  have em1 : cubic (t - 1) = (3 / 2) * (1 - t) ^ 3 - (5 / 2) * (1 - t) ^ 2 + 1 := by
    rw [cubic_of_le_one (by rw [am1]; linarith), am1]
  have em2 : cubic (t - 2) = (-1 / 2) * (2 - t) ^ 3 + (5 / 2) * (2 - t) ^ 2 - 4 * (2 - t) + 2 := by
    rw [cubic_of_one_le_le_two (by rw [am2]; linarith) (by rw [am2]; linarith), am2]
  rw [e2, e5, e1, e0, em1, em2]
  ring

/-- Without the antialiasing modification the un-normalized row sums are
exactly `1`: the six taps at consecutive integer distances reproduce
constants. -/
theorem wSum_eq_one {scale : ℚ} {aa : Bool}
    (hnaa : ¬(scale < 1 ∧ aa = true)) (i : ℕ) : wSum scale aa i = 1 := by
  have hkw : kwidth scale aa = 4 := by rw [kwidth, if_neg hnaa]
  have hb := dist_left_bounds scale aa i
  rw [hkw] at hb
  have hP : Pnat scale aa = 6 := by
    rw [Pnat, hkw]
    norm_num
    decide
  set u := uCoord scale i with hu
  set l : ℚ := (leftIdx scale aa i : ℚ) with hl
  have ht0 : 0 ≤ u - l - 2 := by
    have := hb.1
    norm_num at this
    linarith
  have ht1 : u - l - 2 < 1 := by
    have := hb.2
    norm_num at this
    linarith
  have harg : ∀ j : ℕ, wRaw scale aa i j = cubic (u - l - (j : ℚ)) := by
    intro j
    rw [wRaw, if_neg hnaa]
    congr 1
    ring
  rw [wSum, hP]
  rw [Finset.sum_range_succ, Finset.sum_range_succ, Finset.sum_range_succ,
    Finset.sum_range_succ, Finset.sum_range_succ, Finset.sum_range_succ,
    Finset.sum_range_zero]
  rw [harg 0, harg 1, harg 2, harg 3, harg 4, harg 5]
  have := cubic_window_sum ht0 ht1
  have c0 : u - l - (0 : ℕ) = (u - l - 2) + 2 := by push_cast; ring
  have c1 : u - l - (1 : ℕ) = (u - l - 2) + 1 := by push_cast; ring
  have c2 : u - l - (2 : ℕ) = u - l - 2 := by norm_num
  have c3 : u - l - (3 : ℕ) = (u - l - 2) - 1 := by push_cast; ring
  have c4 : u - l - (4 : ℕ) = (u - l - 2) - 2 := by push_cast; ring
  have c5 : u - l - (5 : ℕ) = (u - l - 2) - 3 := by push_cast; ring
  rw [c0, c1, c2, c3, c4, c5]
  linarith

/-- Counting naturals strictly inside a rational interval: fewer than
`hi - lo + 1`. -/
theorem count_strict_interval (N : ℕ) (lo hi : ℚ) (hd : 0 < hi - lo) :
    (((Finset.range N).filter fun j : ℕ => lo < (j : ℚ) ∧ (j : ℚ) < hi).card : ℚ) <
      hi - lo + 1 := by
  classical
  set T := (Finset.range N).filter fun j : ℕ => lo < (j : ℚ) ∧ (j : ℚ) < hi with hT
  set z : ℤ := ⌈hi⌉ - ⌊lo⌋ - 1 with hzdef
  have hmap : ∀ j ∈ T, (j : ℤ) ∈ Finset.Icc (⌊lo⌋ + 1) (⌈hi⌉ - 1) := by
    intro j hj
    rw [hT, Finset.mem_filter] at hj
    obtain ⟨-, hlo, hhi⟩ := hj
    rw [Finset.mem_Icc]
    have h1 : ⌊lo⌋ < (j : ℤ) := Int.floor_lt.mpr (by exact_mod_cast hlo)
    have h2 : (j : ℤ) < ⌈hi⌉ := Int.lt_ceil.mpr (by exact_mod_cast hhi)
    omega
  have hinj : Set.InjOn (fun j : ℕ => (j : ℤ)) T := fun a _ b _ h => by simpa using h
  have hcard : T.card ≤ (Finset.Icc (⌊lo⌋ + 1) (⌈hi⌉ - 1)).card :=
    Finset.card_le_card_of_injOn _ hmap hinj
  have hIcc : (Finset.Icc (⌊lo⌋ + 1) (⌈hi⌉ - 1)).card = z.toNat := by
    rw [Int.card_Icc]
    congr 1
    omega
  have hcard2 : (T.card : ℚ) ≤ (z.toNat : ℚ) := by
    rw [hIcc] at hcard
    exact_mod_cast hcard
  have hz : ((z : ℤ) : ℚ) < hi - lo + 1 := by
    have h1 : (⌈hi⌉ : ℚ) < hi + 1 := by exact_mod_cast Int.ceil_lt_add_one hi
    have h2 : lo - 1 < (⌊lo⌋ : ℚ) := Int.sub_one_lt_floor lo
    rw [hzdef]
    push_cast
    linarith
  rcases le_or_lt z 0 with hz0 | hz0
  · have h0 : z.toNat = 0 := Int.toNat_of_nonpos hz0
    rw [h0] at hcard2
    have hnn : (0 : ℚ) ≤ (T.card : ℚ) := Nat.cast_nonneg T.card
    norm_num at hcard2
    rw [hcard2]
    norm_num
    linarith
  · have : ((z.toNat : ℕ) : ℚ) = ((z : ℤ) : ℚ) := by
      exact_mod_cast congrArg (fun w : ℤ => (w : ℚ)) (Int.toNat_of_nonneg hz0.le)
    rw [this] at hcard2
    linarith

/-- Counting naturals in a closed rational interval of length at least `1`
sitting inside `[1, N-1)`: at least one, and at least `hi - lo - 1` many. -/
theorem count_closed_interval (N : ℕ) (lo hi : ℚ) (hlo : 0 < lo)
    (hhi : hi < (N : ℚ) - 1) (hlen : 1 ≤ hi - lo) :
    1 ≤ ((Finset.range N).filter fun j : ℕ => lo ≤ (j : ℚ) ∧ (j : ℚ) ≤ hi).card ∧
      hi - lo - 1 ≤
        (((Finset.range N).filter fun j : ℕ => lo ≤ (j : ℚ) ∧ (j : ℚ) ≤ hi).card : ℚ) := by
  classical
  set T := (Finset.range N).filter fun j : ℕ => lo ≤ (j : ℚ) ∧ (j : ℚ) ≤ hi with hT
  have hceil_pos : 0 < ⌈lo⌉ := Int.ceil_pos.mpr hlo
  have hmaps : ∀ k ∈ Finset.Icc ⌈lo⌉ ⌊hi⌋, k.toNat ∈ T := by
    intro k hk
    rw [Finset.mem_Icc] at hk
    obtain ⟨hk1, hk2⟩ := hk
    have hkpos : 0 < k := lt_of_lt_of_le hceil_pos hk1
    have hkq : ((k.toNat : ℕ) : ℚ) = ((k : ℤ) : ℚ) := by
      exact_mod_cast congrArg (fun w : ℤ => (w : ℚ)) (Int.toNat_of_nonneg hkpos.le)
    have hup : ((k : ℤ) : ℚ) ≤ hi :=
      le_trans (by exact_mod_cast hk2) (Int.floor_le hi)
    have hdown : lo ≤ ((k : ℤ) : ℚ) :=
      le_trans (Int.le_ceil lo) (by exact_mod_cast hk1)
    rw [hT, Finset.mem_filter, Finset.mem_range]
    refine ⟨?_, by rw [hkq]; exact hdown, by rw [hkq]; exact hup⟩
    have hklt : ((k : ℤ) : ℚ) < (N : ℚ) := by linarith
    have : (k : ℤ) < (N : ℤ) := by exact_mod_cast hklt
    omega
  have hinj : Set.InjOn Int.toNat (Finset.Icc ⌈lo⌉ ⌊hi⌋) := by
    intro a ha b hb hab
    have ha' := Finset.mem_coe.mp ha
    have hb' := Finset.mem_coe.mp hb
    rw [Finset.mem_Icc] at ha' hb'
    have ha0 : 0 ≤ a := le_trans hceil_pos.le ha'.1
    have hb0 : 0 ≤ b := le_trans hceil_pos.le hb'.1
    omega
  have hcard : (Finset.Icc ⌈lo⌉ ⌊hi⌋).card ≤ T.card :=
    Finset.card_le_card_of_injOn _ hmaps hinj
  have hfl : ⌈lo⌉ ≤ ⌊hi⌋ := by
    have h1 : ⌊lo + 1⌋ ≤ ⌊hi⌋ := Int.floor_le_floor (by linarith)
    have h2 : ⌊lo + 1⌋ = ⌊lo⌋ + 1 := by
      exact_mod_cast Int.floor_add_int lo 1
    have h3 : ⌈lo⌉ ≤ ⌊lo⌋ + 1 := Int.ceil_le_floor_add_one lo
    omega
  have hIcc : (Finset.Icc ⌈lo⌉ ⌊hi⌋).card = (⌊hi⌋ + 1 - ⌈lo⌉).toNat := Int.card_Icc _ _
  constructor
  · rw [hIcc] at hcard
    omega
  · have h1 : hi - 1 < (⌊hi⌋ : ℚ) := Int.sub_one_lt_floor hi
    have h2 : (⌈lo⌉ : ℚ) < lo + 1 := by exact_mod_cast Int.ceil_lt_add_one lo
    have hq : hi - lo - 1 ≤ (((⌊hi⌋ + 1 - ⌈lo⌉).toNat : ℕ) : ℚ) := by
      have hnn : 0 ≤ ⌊hi⌋ + 1 - ⌈lo⌉ := by omega
      have : (((⌊hi⌋ + 1 - ⌈lo⌉).toNat : ℕ) : ℚ) = ((⌊hi⌋ + 1 - ⌈lo⌉ : ℤ) : ℚ) := by
        exact_mod_cast congrArg (fun w : ℤ => (w : ℚ)) (Int.toNat_of_nonneg hnn)
      rw [this]
      push_cast
      linarith
    have : ((Finset.Icc ⌈lo⌉ ⌊hi⌋).card : ℚ) ≤ (T.card : ℚ) := by exact_mod_cast hcard
    rw [hIcc] at this
    linarith

/-- Positivity of the antialiased weight row sums: for `0 < s < 1`, a grid
of kernel samples with spacing `s` that starts at `a ≥ 2` and ends at or
below `-2` has a strictly positive sum.  (The guaranteed samples in
`[-1/2, 1/2]` outweigh the negative lobes on `1 < |x| < 2`.) -/
theorem cubic_grid_sum_pos (s a : ℚ) (N : ℕ) (hs0 : 0 < s) (hs1 : s < 1)
    (ha : 2 ≤ a) (hlast : a - ((N : ℚ) - 1) * s ≤ -2) :
    0 < ∑ j ∈ Finset.range N, cubic (a - (j : ℚ) * s) := by
  classical
  set S := Finset.range N with hS
  set pA : ℕ → Prop := fun j => (a - 1 / 2) / s ≤ (j : ℚ) ∧ (j : ℚ) ≤ (a + 1 / 2) / s with hpA
  set A := S.filter pA with hA
  set B1 := S.filter (fun j : ℕ => (a - 2) / s < (j : ℚ) ∧ (j : ℚ) < (a - 1) / s) with hB1
  set B2 := S.filter (fun j : ℕ => (a + 1) / s < (j : ℚ) ∧ (j : ℚ) < (a + 2) / s) with hB2
  -- pointwise translations between j-intervals and kernel-argument bounds
  have hAx : ∀ j : ℕ, pA j → |a - (j : ℚ) * s| ≤ 1 / 2 := by
    intro j hj
    obtain ⟨h1, h2⟩ := hj
    rw [div_le_iff₀ hs0] at h1
    rw [le_div_iff₀ hs0] at h2
    rw [abs_le]
    constructor <;> linarith
  have hB1x : ∀ j : ℕ, ((a - 2) / s < (j : ℚ) ∧ (j : ℚ) < (a - 1) / s) ↔
      (1 < a - (j : ℚ) * s ∧ a - (j : ℚ) * s < 2) := by
    intro j
    rw [div_lt_iff₀ hs0, lt_div_iff₀ hs0]
    constructor <;> rintro ⟨h1, h2⟩ <;> constructor <;> linarith
  have hB2x : ∀ j : ℕ, ((a + 1) / s < (j : ℚ) ∧ (j : ℚ) < (a + 2) / s) ↔
      (-2 < a - (j : ℚ) * s ∧ a - (j : ℚ) * s < -1) := by
    intro j
    rw [div_lt_iff₀ hs0, lt_div_iff₀ hs0]
    constructor <;> rintro ⟨h1, h2⟩ <;> constructor <;> linarith
  -- the generous samples: |x| ≤ 1/2 gives cubic ≥ 9/16
  have hApt : ∀ j ∈ A, (9 / 16 : ℚ) ≤ cubic (a - (j : ℚ) * s) := by
    intro j hj
    rw [hA, Finset.mem_filter] at hj
    exact cubic_ge_of_le_half (hAx j hj.2)
  -- the negative lobes: members of B1 ∪ B2 have cubic ≥ -2/27
  have hBpt : ∀ j ∈ B1 ∪ B2, (-2 / 27 : ℚ) ≤ cubic (a - (j : ℚ) * s) := by
    intro j hj
    rcases Finset.mem_union.mp hj with hj1 | hj2
    · rw [hB1, Finset.mem_filter] at hj1
      obtain ⟨h1, h2⟩ := (hB1x j).mp hj1.2
      have habs : |a - (j : ℚ) * s| = a - (j : ℚ) * s := abs_of_nonneg (by linarith)
      exact cubic_ge_neg_lobe (by rw [habs]; linarith) (by rw [habs]; linarith)
    · rw [hB2, Finset.mem_filter] at hj2
      obtain ⟨h1, h2⟩ := (hB2x j).mp hj2.2
      have habs : |a - (j : ℚ) * s| = -(a - (j : ℚ) * s) := abs_of_nonpos (by linarith)
      exact cubic_ge_neg_lobe (by rw [habs]; linarith) (by rw [habs]; linarith)
  -- everything outside A and B1 ∪ B2 is nonnegative
  have hrest : ∀ j ∈ S.filter (fun j => ¬pA j), j ∉ B1 ∪ B2 →
      (0 : ℚ) ≤ cubic (a - (j : ℚ) * s) := by
    intro j hj hjB
    rw [Finset.mem_filter] at hj
    obtain ⟨hjS, -⟩ := hj
    rcases le_or_lt |a - (j : ℚ) * s| 1 with hle | hgt
    · exact cubic_nonneg_of_le_one hle
    · rcases lt_or_le |a - (j : ℚ) * s| 2 with hlt2 | hge2
      · exfalso
        apply hjB
        rcases abs_cases (a - (j : ℚ) * s) with ⟨heq, -⟩ | ⟨heq, -⟩
        · refine Finset.mem_union_left _ ?_
          rw [hB1, Finset.mem_filter]
          exact ⟨hjS, (hB1x j).mpr ⟨by linarith [heq ▸ hgt], by linarith [heq ▸ hlt2]⟩⟩
        · refine Finset.mem_union_right _ ?_
          rw [hB2, Finset.mem_filter]
          exact ⟨hjS, (hB2x j).mpr ⟨by linarith [heq ▸ hlt2], by linarith [heq ▸ hgt]⟩⟩
      · rw [cubic_of_two_le hge2]
  -- split the sum
  have hsplit : ∑ j ∈ S, cubic (a - (j : ℚ) * s) =
      (∑ j ∈ A, cubic (a - (j : ℚ) * s)) +
        ∑ j ∈ S.filter (fun j => ¬pA j), cubic (a - (j : ℚ) * s) :=
    (Finset.sum_filter_add_sum_filter_not S pA _).symm
  have hBsub : B1 ∪ B2 ⊆ S.filter (fun j => ¬pA j) := by
    intro j hj
    rw [Finset.mem_filter]
    rcases Finset.mem_union.mp hj with hj1 | hj2
    · rw [hB1, Finset.mem_filter] at hj1
      obtain ⟨h1, h2⟩ := (hB1x j).mp hj1.2
      refine ⟨hj1.1, fun hpa => ?_⟩
      have := hAx j hpa
      rw [abs_le] at this
      linarith [this.2]
    · rw [hB2, Finset.mem_filter] at hj2
      obtain ⟨h1, h2⟩ := (hB2x j).mp hj2.2
      refine ⟨hj2.1, fun hpa => ?_⟩
      have := hAx j hpa
      rw [abs_le] at this
      linarith [this.1]
  have htail : ∑ j ∈ B1 ∪ B2, cubic (a - (j : ℚ) * s) ≤
      ∑ j ∈ S.filter (fun j => ¬pA j), cubic (a - (j : ℚ) * s) :=
    Finset.sum_le_sum_of_subset_of_nonneg hBsub (fun j hj hnotB => hrest j hj hnotB)
  have hAsum : ((A.card : ℚ)) * (9 / 16) ≤ ∑ j ∈ A, cubic (a - (j : ℚ) * s) := by
    have := Finset.card_nsmul_le_sum A (fun j => cubic (a - (j : ℚ) * s)) (9 / 16) hApt
    rwa [nsmul_eq_mul] at this
  have hBsum : (((B1 ∪ B2).card : ℚ)) * (-2 / 27) ≤
      ∑ j ∈ B1 ∪ B2, cubic (a - (j : ℚ) * s) := by
    have := Finset.card_nsmul_le_sum (B1 ∪ B2) (fun j => cubic (a - (j : ℚ) * s)) (-2 / 27) hBpt
    rwa [nsmul_eq_mul] at this
  -- interval endpoint facts
  have hinv1 : (1 : ℚ) ≤ 1 / s := by
    rw [le_div_iff₀ hs0]
    linarith
  have hcA := count_closed_interval N ((a - 1 / 2) / s) ((a + 1 / 2) / s)
    (div_pos (by linarith) hs0)
    (by
      have hN : a + 2 ≤ ((N : ℚ) - 1) * s := by linarith
      have hdiff : (a + 2) / s - (a + 1 / 2) / s = (3 / 2) / s := by
        rw [div_sub_div_same]
        norm_num
      have hpos : 0 < (3 / 2 : ℚ) / s := div_pos (by norm_num) hs0
      have h2 : (a + 2) / s ≤ (N : ℚ) - 1 := by
        rw [div_le_iff₀ hs0]
        exact hN
      linarith)
    (by
      have : (a + 1 / 2) / s - (a - 1 / 2) / s = 1 / s := by
        rw [div_sub_div_same]
        norm_num
      linarith)
  have hcB1 := count_strict_interval N ((a - 2) / s) ((a - 1) / s)
    (by
      have : (a - 1) / s - (a - 2) / s = 1 / s := by
        rw [div_sub_div_same]
        norm_num
      linarith)
  have hcB2 := count_strict_interval N ((a + 1) / s) ((a + 2) / s)
    (by
      have : (a + 2) / s - (a + 1) / s = 1 / s := by
        rw [div_sub_div_same]
        norm_num
      linarith)
  have hd1 : (a - 1) / s - (a - 2) / s = 1 / s := by
    rw [div_sub_div_same]
    norm_num
  have hd2 : (a + 2) / s - (a + 1) / s = 1 / s := by
    rw [div_sub_div_same]
    norm_num
  have hdA : (a + 1 / 2) / s - (a - 1 / 2) / s = 1 / s := by
    rw [div_sub_div_same]
    norm_num
  rw [hd1] at hcB1
  rw [hd2] at hcB2
  rw [hdA] at hcA
  obtain ⟨hcA1, hcAq⟩ := hcA
  have hcA1q : (1 : ℚ) ≤ (A.card : ℚ) := by exact_mod_cast hcA1
  have hcBcard : ((B1 ∪ B2).card : ℚ) ≤ (B1.card : ℚ) + (B2.card : ℚ) := by
    exact_mod_cast Finset.card_union_le B1 B2
  -- the total is at least (9/16)|A| - (2/27)|B1 ∪ B2|
  have hT : ((A.card : ℚ)) * (9 / 16) + (((B1 ∪ B2).card : ℚ)) * (-2 / 27) ≤
      ∑ j ∈ S, cubic (a - (j : ℚ) * s) := by
    rw [hsplit]
    have := le_trans hBsum htail
    linarith
  rcases lt_or_le s (179 / 307) with hcase | hcase
  · -- small s: use the density bounds
    have hw : (307 : ℚ) / 179 < 1 / s := by
      rw [lt_div_iff₀ hs0]
      linarith
    have hBb : ((B1 ∪ B2).card : ℚ) ≤ 2 * (1 / s) + 2 := by linarith
    linarith [hT, hcAq, hBb, hw]
  · -- s ≥ 179/307: at most two grid points per negative lobe
    have hwle : 1 / s ≤ 307 / 179 := by
      rw [div_le_iff₀ hs0]
      linarith
    have hB1le : (B1.card : ℚ) ≤ 2 := by
      have h3 : (B1.card : ℚ) < 3 := by linarith
      have h3' : B1.card < 3 := by exact_mod_cast h3
      have h2 : B1.card ≤ 2 := by omega
      exact_mod_cast h2
    have hB2le : (B2.card : ℚ) ≤ 2 := by
      have h3 : (B2.card : ℚ) < 3 := by linarith
      have h3' : B2.card < 3 := by exact_mod_cast h3
      have h2 : B2.card ≤ 2 := by omega
      exact_mod_cast h2
    have hcB4 : (((B1 ∪ B2).card : ℚ)) ≤ 4 := by linarith
    linarith [hT, hcA1q, hcB4]

/-- With antialiasing and a downscale, the un-normalized row sums are
strictly positive. -/
theorem wSum_pos_aa {scale : ℚ} {aa : Bool} (hs : 0 < scale) (hlt : scale < 1)
    (haa : aa = true) (i : ℕ) : 0 < wSum scale aa i := by
  have hcond : scale < 1 ∧ aa = true := ⟨hlt, haa⟩
  have hkw : kwidth scale aa = 4 / scale := by rw [kwidth, if_pos hcond]
  obtain ⟨hcast, h6⟩ := Pnat_facts hs aa
  have hb := dist_left_bounds scale aa i
  rw [hkw] at hb
  set u := uCoord scale i with hu
  set l : ℚ := (leftIdx scale aa i : ℚ) with hl
  set a : ℚ := (u - l) * scale with hadef
  have hhalf : 4 / scale / 2 = 2 / scale := by ring
  have ha2 : 2 ≤ a := by
    have h2 : 2 / scale ≤ u - l := by
      have hb1 := hb.1
      rw [hhalf] at hb1
      exact hb1
    calc (2 : ℚ) = 2 / scale * scale := (div_mul_cancel₀ 2 (ne_of_gt hs)).symm
    _ ≤ (u - l) * scale := mul_le_mul_of_nonneg_right h2 hs.le
  have hNlast : a - ((Pnat scale aa : ℚ) - 1) * scale ≤ -2 := by
    have hP : ((Pnat scale aa : ℚ)) = ((⌈kwidth scale aa⌉ : ℤ) : ℚ) + 2 := by
      exact_mod_cast congrArg (fun z : ℤ => (z : ℚ)) hcast
    have hge : kwidth scale aa ≤ ((⌈kwidth scale aa⌉ : ℤ) : ℚ) := Int.le_ceil _
    have hN1 : kwidth scale aa + 1 ≤ (Pnat scale aa : ℚ) - 1 := by
      rw [hP]
      linarith
    rw [hkw] at hN1
    have hd : u - l - ((Pnat scale aa : ℚ) - 1) ≤ -(2 / scale) := by
      have hb2 := hb.2
      rw [hhalf] at hb2
      linarith
    have hmul := mul_le_mul_of_nonneg_right hd hs.le
    have hcan : -(2 / scale) * scale = -2 := by
      field_simp
    calc a - ((Pnat scale aa : ℚ) - 1) * scale
        = (u - l - ((Pnat scale aa : ℚ) - 1)) * scale := by rw [hadef]; ring
    _ ≤ -(2 / scale) * scale := hmul
    _ = -2 := hcan
  have hsum : wSum scale aa i =
      scale * ∑ j ∈ Finset.range (Pnat scale aa), cubic (a - (j : ℚ) * scale) := by
    rw [wSum, Finset.mul_sum]
    refine Finset.sum_congr rfl fun j _ => ?_
    rw [wRaw, if_pos hcond]
    congr 2
    rw [hadef]
    ring
  rw [hsum]
  exact mul_pos hs (cubic_grid_sum_pos scale a (Pnat scale aa) hs hlt ha2 hNlast)

/-- The row sums of the un-normalized weights never vanish. -/
theorem wSum_ne_zero {scale : ℚ} (hs : 0 < scale) (aa : Bool) (i : ℕ) :
    wSum scale aa i ≠ 0 := by
  by_cases h : scale < 1 ∧ aa = true
  · exact ne_of_gt (wSum_pos_aa hs h.1 h.2 i)
  · rw [wSum_eq_one h i]
    exact one_ne_zero

/-- Every full (pre-prune) normalized row sums to `1`. -/
theorem wNorm_row_sum {scale : ℚ} (hs : 0 < scale) (aa : Bool) (i : ℕ) :
    ∑ j ∈ Finset.range (Pnat scale aa), wNorm scale aa i j = 1 := by
  simp only [wNorm]
  rw [← Finset.sum_div]
  have hnum : (∑ j ∈ Finset.range (Pnat scale aa), wRaw scale aa i j) = wSum scale aa i := rfl
  rw [hnum]
  exact div_self (wSum_ne_zero hs aa i)

/-- C4: for every `in_length ≥ 1`, `out_length ≥ 1`, positive scale and
either antialiasing flag, every row of the final (normalized and pruned)
weights matrix returned by `calculate_weights_indices` sums to exactly `1`
(the floating-tolerance clause of the claim is exact in `ℚ`). -/
theorem calcWI_row_sum (inLen out : ℕ) (scale : ℚ) (aa : Bool)
    (_hin : 1 ≤ inLen) (hout : 1 ≤ out) (hs : 0 < scale) :
    ∀ i < out,
      ∑ j ∈ Finset.range (calcWI inLen out scale aa).width,
        (calcWI inLen out scale aa).w i j = 1 := by
  intro i _hi
  have hP6 := (Pnat_facts hs aa).2
  have hlo := colLo_eq_one hout hs aa
  have hwid := finalWidth_eq hout hs aa
  have hfull := wNorm_row_sum hs aa i
  have hgoal : ∑ j ∈ Finset.range (calcWI inLen out scale aa).width,
      (calcWI inLen out scale aa).w i j =
      ∑ j ∈ Finset.range (Pnat scale aa - 2), wNorm scale aa i (1 + j) := by
    have hw : (calcWI inLen out scale aa).width = Pnat scale aa - 2 := hwid
    rw [hw]
    refine Finset.sum_congr rfl fun j _ => ?_
    show wNorm scale aa i (colLo out scale aa + j) = wNorm scale aa i (1 + j)
    rw [hlo]
  rw [hgoal]
  have hshift : ∑ j ∈ Finset.range (Pnat scale aa - 2), wNorm scale aa i (1 + j) =
      ∑ k ∈ Finset.Ico 1 (Pnat scale aa - 1), wNorm scale aa i k := by
    have heq : Pnat scale aa - 1 - 1 = Pnat scale aa - 2 := by omega
    rw [Finset.sum_Ico_eq_sum_range, heq]
  rw [hshift]
  have hsplit0 : ∑ j ∈ Finset.range (Pnat scale aa), wNorm scale aa i j =
      wNorm scale aa i 0 + ∑ k ∈ Finset.Ico 1 (Pnat scale aa), wNorm scale aa i k := by
    rw [Finset.range_eq_Ico]
    exact Finset.sum_eq_sum_Ico_succ_bot (by omega) _
  have hsplitTop : ∑ k ∈ Finset.Ico 1 (Pnat scale aa), wNorm scale aa i k =
      (∑ k ∈ Finset.Ico 1 (Pnat scale aa - 1), wNorm scale aa i k) +
        wNorm scale aa i (Pnat scale aa - 1) := by
    have hstep := Finset.sum_Ico_succ_top
      (show 1 ≤ Pnat scale aa - 1 by omega) (fun k => wNorm scale aa i k)
    rw [show Pnat scale aa - 1 + 1 = Pnat scale aa from by omega] at hstep
    exact hstep
  rw [hsplit0, hsplitTop, wNorm_first_zero hs aa i, wNorm_last_zero hs aa i] at hfull
  linarith

/-- C4 (witness): row sums at `in_length = 4`, `out_length = 2`,
`scale = 1/2`, antialiasing on. -/
theorem calcWI_row_sum_witness :
    (0 : ℚ) < 1 / 2 ∧
      ∀ i < 2,
        ∑ j ∈ Finset.range (calcWI 4 2 (1 / 2) true).width,
          (calcWI 4 2 (1 / 2) true).w i j = 1 :=
  ⟨by norm_num, calcWI_row_sum 4 2 (1 / 2) true (by norm_num) (by norm_num) (by norm_num)⟩

/-! ## Lemmas: the resize at scale 1 -/

theorem kwidth_one (aa : Bool) : kwidth 1 aa = 4 := by
  rw [kwidth, if_neg]
  rintro ⟨h, -⟩
  exact lt_irrefl 1 h

theorem not_lt_one_and (aa : Bool) : ¬((1 : ℚ) < 1 ∧ aa = true) := by
  rintro ⟨h, -⟩
  exact lt_irrefl 1 h

theorem Pnat_one (aa : Bool) : Pnat 1 aa = 6 := by
  rw [Pnat, kwidth_one]
  norm_num
  decide

theorem uCoord_one (i : ℕ) : uCoord 1 i = (i : ℚ) + 1 := by
  rw [uCoord]
  norm_num

theorem leftIdx_one (aa : Bool) (i : ℕ) : leftIdx 1 aa i = (i : ℤ) - 1 := by
  rw [leftIdx, uCoord_one, kwidth_one]
  have h : (i : ℚ) + 1 - 4 / 2 = (((i : ℤ) - 1 : ℤ) : ℚ) := by push_cast; ring
  rw [h, Int.floor_intCast]

theorem wNorm_one (aa : Bool) (i j : ℕ) : wNorm 1 aa i j = cubic (2 - (j : ℚ)) := by
  rw [wNorm, wSum_eq_one (not_lt_one_and aa) i, div_one, wRaw, if_neg (not_lt_one_and aa)]
  congr 1
  rw [uCoord_one, leftIdx_one]
  push_cast
  ring

/-- The kernel at integer arguments is the Kronecker delta. -/
theorem cubic_intCast (z : ℤ) : cubic (z : ℚ) = if z = 0 then 1 else 0 := by
  rcases eq_or_ne z 0 with rfl | hz
  · rw [if_pos rfl]
    push_cast
    rw [cubic_of_le_one (by norm_num)]
    norm_num
  · rw [if_neg hz]
    have h1 : (1 : ℚ) ≤ |(z : ℚ)| := by
      rw [← Int.cast_abs]
      exact_mod_cast Int.one_le_abs hz
    rcases le_or_lt 2 |(z : ℚ)| with h2 | h2
    · exact cubic_of_two_le h2
    · have habs : |(z : ℚ)| = 1 := by
        rw [← Int.cast_abs] at h1 h2 ⊢
        have hi1 : (1 : ℤ) ≤ |z| := by exact_mod_cast h1
        have hi2 : |z| < 2 := by exact_mod_cast h2
        have : |z| = 1 := by omega
        rw [this]
        norm_num
      rw [cubic_of_one_le_le_two h1 h2.le, habs]
      norm_num

/-- At scale `1` the normalized weights select the center tap. -/
theorem wNorm_one_if (aa : Bool) (i j : ℕ) :
    wNorm 1 aa i j = if j = 2 then 1 else 0 := by
  rw [wNorm_one]
  have h : (2 : ℚ) - (j : ℚ) = (((2 - (j : ℤ)) : ℤ) : ℚ) := by push_cast; ring
  rw [h, cubic_intCast]
  by_cases hj : j = 2
  · rw [if_pos hj, if_pos (by omega)]
  · rw [if_neg hj, if_neg (by omega)]

theorem idxPre_one (out : ℕ) (aa : Bool) (hout : 1 ≤ out) (i j : ℕ) :
    idxPre out 1 aa i j = (i : ℤ) + j := by
  rw [idxPre, leftIdx_one, colLo_eq_one hout (by norm_num) aa]
  push_cast
  ring

theorem finalWidth_one (out : ℕ) (aa : Bool) (hout : 1 ≤ out) :
    finalWidth out 1 aa = 4 := by
  rw [finalWidth_eq hout (by norm_num) aa, Pnat_one]

theorem minIdx_one (out : ℕ) (aa : Bool) (hout : 1 ≤ out) : minIdx out 1 aa = 0 := by
  obtain ⟨hmem, hle⟩ :=
    list_minimum_spec (idxList out 1 aa) (@idxList_ne_nil out 1 hout (by norm_num) aa)
  have hwidth : 0 < finalWidth out 1 aa := by
    rw [finalWidth_one out aa hout]
    norm_num
  have h0 : (0 : ℤ) ∈ idxList out 1 aa := by
    have hm := @mem_idxList out 1 aa 0 0 hout hwidth
    rwa [idxPre_one out aa hout 0 0] at hm
  have hup : minIdx out 1 aa ≤ 0 := hle 0 h0
  have hdown : 0 ≤ minIdx out 1 aa := by
    obtain ⟨i, hi, j, hj, hv⟩ := mem_idxList_elim hmem
    have heq : minIdx out 1 aa = idxPre out 1 aa i j := hv
    rw [heq, idxPre_one out aa hout i j]
    positivity
  omega

theorem maxIdx_one (out : ℕ) (aa : Bool) (hout : 1 ≤ out) :
    maxIdx out 1 aa = (out : ℤ) + 2 := by
  obtain ⟨hmem, hge⟩ :=
    list_maximum_spec (idxList out 1 aa) (@idxList_ne_nil out 1 hout (by norm_num) aa)
  have hwidth : finalWidth out 1 aa = 4 := finalWidth_one out aa hout
  have htop : ((out : ℤ) + 2) ∈ idxList out 1 aa := by
    have hmem2 := @mem_idxList out 1 aa (out - 1) 3
      (show out - 1 < out by omega) (show 3 < finalWidth out 1 aa by omega)
    rw [idxPre_one out aa hout (out - 1) 3] at hmem2
    have harith : ((out - 1 : ℕ) : ℤ) + ((3 : ℕ) : ℤ) = (out : ℤ) + 2 := by
      push_cast [Nat.cast_sub hout]
      ring
    rwa [harith] at hmem2
  have hup : (out : ℤ) + 2 ≤ maxIdx out 1 aa := hge _ htop
  have hdown : maxIdx out 1 aa ≤ (out : ℤ) + 2 := by
    obtain ⟨i, hi, j, hj, hv⟩ := mem_idxList_elim hmem
    have heq : maxIdx out 1 aa = idxPre out 1 aa i j := hv
    rw [heq, idxPre_one out aa hout i j]
    rw [hwidth] at hj
    have h1 : (i : ℤ) ≤ (out : ℤ) - 1 := by
      have : (i : ℤ) < out := by exact_mod_cast hi
      omega
    have h2 : (j : ℤ) ≤ 3 := by
      have : (j : ℤ) < 4 := by exact_mod_cast hj
      omega
    omega
  omega

theorem calcWI_one_fields (inLen out : ℕ) (aa : Bool) (hout : 1 ≤ out) :
    (calcWI inLen out 1 aa).width = 4 ∧
      (calcWI inLen out 1 aa).symS = 1 ∧
      (calcWI inLen out 1 aa).symE = (out : ℤ) + 2 - inLen ∧
      (∀ i j : ℕ, (calcWI inLen out 1 aa).idx i j = (i : ℤ) + j) ∧
      ∀ i j : ℕ, (calcWI inLen out 1 aa).w i j = if j = 1 then 1 else 0 := by
  have hS : symS out 1 aa = 1 := by
    rw [symS, minIdx_one out aa hout]
    ring
  refine ⟨finalWidth_one out aa hout, hS, ?_, ?_, ?_⟩
  · show symE inLen out 1 aa = (out : ℤ) + 2 - inLen
    rw [symE, maxIdx_one out aa hout]
  · intro i j
    show idxPre out 1 aa i j + symS out 1 aa - 1 = (i : ℤ) + j
    rw [idxPre_one out aa hout i j, hS]
    ring
  · intro i j
    show wNorm 1 aa i (colLo out 1 aa + j) = if j = 1 then 1 else 0
    rw [colLo_eq_one hout (by norm_num) aa, wNorm_one_if]
    by_cases hj : j = 1
    · rw [if_pos (by omega), if_pos hj]
    · rw [if_neg (by omega), if_neg hj]

/-- At scale `1` one separable pass is the identity on in-range positions. -/
theorem resizePass1D_one (len out : ℕ) (aa : Bool) (hout : 1 ≤ out)
    (f : ℕ → ℚ) (i : ℕ) (hi : i < len) :
    resizePass1D len (calcWI len out 1 aa) f i = f i := by
  obtain ⟨hw, hS, hE, hidx, hwgt⟩ := calcWI_one_fields len out aa hout
  have hidx0 : ((calcWI len out 1 aa).idx i 0).toNat = i := by
    rw [hidx i 0]
    simp
  have hmirror : mirrorAxis len ((calcWI len out 1 aa).symS).toNat
      ((calcWI len out 1 aa).symE).toNat f (((calcWI len out 1 aa).idx i 0).toNat + 1) =
      f i := by
    rw [hidx0, hS, mirrorAxis]
    rw [if_neg (by omega), if_pos (by omega)]
    congr 1
  rw [resizePass1D, hw]
  rw [Finset.sum_range_succ, Finset.sum_range_succ, Finset.sum_range_succ,
    Finset.sum_range_succ, Finset.sum_range_zero]
  rw [hwgt i 0, hwgt i 1, hwgt i 2, hwgt i 3]
  rw [if_neg (by decide : ¬(0 = 1)), if_pos (rfl : 1 = 1),
    if_neg (by decide : ¬(2 = 1)), if_neg (by decide : ¬(3 = 1))]
  rw [hmirror]
  ring

/-- At scale `1` the per-axis guard holds for any axis of length at least
`2` (for length `1` the end mirror `img[:, -2:, :]` is short and the copy
fails). -/
theorem axisOk_one (len : ℕ) (aa : Bool) (hlen : 2 ≤ len) :
    axisOk len (⌈(len : ℚ) * 1⌉).toNat 1 aa := by
  have hout : (⌈(len : ℚ) * 1⌉).toNat = len := by
    rw [mul_one, Int.ceil_natCast]
    simp
  rw [hout]
  obtain ⟨hw, hS, hE, hidx, hwgt⟩ := calcWI_one_fields len len aa (by omega)
  refine ⟨?_, ?_, ?_, ?_, ?_⟩
  · rw [hS]
    norm_num
  · rw [hS]
    omega
  · rw [hE]
    omega
  · rw [hE]
    omega
  · intro i hiout
    rw [hidx i 0, hw, hS, hE]
    omega

/-- At scale `1`, on a three-or-more-channel image with both spatial sizes
at least `2`, `imresize` succeeds, keeps the shape, and is the identity on
the three processed channels. -/
theorem imresize_one_some (img : T3) (aa : Bool) (hC : 3 ≤ img.C)
    (hH : 2 ≤ img.H) (hW : 2 ≤ img.W) :
    ∃ t, imresize img 1 aa = some t ∧ t.C = img.C ∧ t.H = img.H ∧ t.W = img.W ∧
      ∀ c < 3, ∀ i < img.H, ∀ w < img.W, t.val c i w = img.val c i w := by
  have houtH : (⌈(img.H : ℚ) * 1⌉).toNat = img.H := by
    rw [mul_one, Int.ceil_natCast]
    simp
  have houtW : (⌈(img.W : ℚ) * 1⌉).toNat = img.W := by
    rw [mul_one, Int.ceil_natCast]
    simp
  rw [imresize, if_pos ⟨hC, axisOk_one img.H aa hH, axisOk_one img.W aa hW⟩]
  refine ⟨_, rfl, rfl, houtH, houtW, ?_⟩
  intro c hc i hi w hw
  show (if c < 3 then
      resizePass1D img.W (calcWI img.W (⌈(img.W : ℚ) * 1⌉).toNat 1 aa)
        (fun r =>
          resizePass1D img.H (calcWI img.H (⌈(img.H : ℚ) * 1⌉).toNat 1 aa)
            (fun rr => img.val c rr r) i) w
    else 0) = img.val c i w
  rw [if_pos hc, houtW, houtH]
  rw [resizePass1D_one img.W img.W aa (by omega) _ w hw]
  exact resizePass1D_one img.H img.H aa (by omega) _ i hi

/-! ## Theorems: imresize shape (claim C2) -/

/-- C2 (amended): whenever `imresize(img, scale)` returns at all, the result
has channel count `C` and spatial dimensions `ceil(H*scale)` by
`ceil(W*scale)` (as naturals, and as the exact ceilings whenever those are
positive, which holds for every positive scale). -/
theorem imresize_shape (img : T3) (scale : ℚ) (aa : Bool) (t : T3)
    (h : imresize img scale aa = some t) :
    t.C = img.C ∧ t.H = (⌈(img.H : ℚ) * scale⌉).toNat ∧
      t.W = (⌈(img.W : ℚ) * scale⌉).toNat ∧
      (0 < ⌈(img.H : ℚ) * scale⌉ → (t.H : ℤ) = ⌈(img.H : ℚ) * scale⌉) ∧
      (0 < ⌈(img.W : ℚ) * scale⌉ → (t.W : ℤ) = ⌈(img.W : ℚ) * scale⌉) := by
  rw [imresize] at h
  split_ifs at h with hc
  · obtain rfl := Option.some.inj h
    refine ⟨rfl, rfl, rfl, fun hpos => ?_, fun hpos => ?_⟩
    · exact Int.toNat_of_nonneg hpos.le
    · exact Int.toNat_of_nonneg hpos.le

/-- C2 (counterexample): the hard-coded three-channel loop makes
`imresize` fail on a single-channel `1×2×2` image (Python `IndexError` on
`out_1[1]`), so the claim's universal quantification over all channel
counts fails. -/
theorem imresize_channels_cex :
    imresize ⟨1, 2, 2, fun _ _ _ => 0⟩ 1 true = none := by
  rw [imresize, if_neg]
  rintro ⟨h3, -⟩
  simp at h3

/-- C2 (witness): the amended shape statement evaluated at a `3×2×2` image
and scale `1`. -/
theorem imresize_shape_witness :
    ∃ t, imresize ⟨3, 2, 2, fun _ _ _ => 0⟩ 1 true = some t ∧
      t.C = 3 ∧ t.H = (⌈((2 : ℕ) : ℚ) * 1⌉).toNat ∧
      t.W = (⌈((2 : ℕ) : ℚ) * 1⌉).toNat := by
  obtain ⟨t, ht, -, -, -, -⟩ :=
    imresize_one_some ⟨3, 2, 2, fun _ _ _ => 0⟩ true (by norm_num) (by norm_num)
      (by norm_num)
  have hs := imresize_shape ⟨3, 2, 2, fun _ _ _ => 0⟩ 1 true t ht
  exact ⟨t, ht, hs.1, hs.2.1, hs.2.2.1⟩

/-! ## Theorems: imresize at scale 1 (claim C5) -/

/-- C5 (amended): at `scale = 1`, on an image with exactly the three
hard-coded channels and both spatial sizes at least `2`, `imresize` returns
the input unchanged (exactly, in the rational model): same shape and equal
entries at every in-range position. -/
theorem imresize_scale_one_id (img : T3) (aa : Bool) (hC : img.C = 3)
    (hH : 2 ≤ img.H) (hW : 2 ≤ img.W) :
    ∃ t, imresize img 1 aa = some t ∧ t.C = img.C ∧ t.H = img.H ∧ t.W = img.W ∧
      ∀ c < img.C, ∀ i < img.H, ∀ w < img.W, t.val c i w = img.val c i w := by
  obtain ⟨t, ht, h1, h2, h3, h4⟩ := imresize_one_some img aa (by omega) hH hW
  exact ⟨t, ht, h1, h2, h3, fun c hc => h4 c (by omega)⟩

/-- C5 (witness): the identity at scale `1` on a concrete `3×2×2` image. -/
theorem imresize_scale_one_id_witness :
    ∃ t, imresize ⟨3, 2, 2, fun _ _ _ => 0⟩ 1 true = some t ∧
      t.C = 3 ∧ t.H = 2 ∧ t.W = 2 ∧
      ∀ c < 3, ∀ i < 2, ∀ w < 2,
        t.val c i w = (⟨3, 2, 2, fun _ _ _ => 0⟩ : T3).val c i w :=
  imresize_scale_one_id ⟨3, 2, 2, fun _ _ _ => 0⟩ true rfl (by norm_num) (by norm_num)

/-- C5 (counterexample): scale `1` is not the identity on every input —
on a `3×1×2` image the end-mirror step `img[:, -sym_len_He:, :]` needs two
rows from a one-row axis and the copy fails, so nothing is returned. -/
theorem imresize_scale_one_cex :
    imresize ⟨3, 1, 2, fun _ _ _ => 0⟩ 1 true = none := by
  rw [imresize, if_neg]
  rintro ⟨-, hok, -⟩
  have hout1 : (⌈((1 : ℕ) : ℚ) * 1⌉).toNat = 1 := by
    rw [mul_one, Int.ceil_natCast]
    simp
  have hok' : axisOk 1 ((⌈((1 : ℕ) : ℚ) * 1⌉).toNat) 1 true := hok
  rw [hout1] at hok'
  obtain ⟨-, -, -, hE2, -⟩ := hok'
  obtain ⟨-, -, hEval, -, -⟩ := calcWI_one_fields 1 1 true (by norm_num)
  rw [hEval] at hE2
  norm_num at hE2

/-! ## Theorems: reconstruction_SADloss (claim C1) -/

/-- C1 (code evaluated at the failing input): a cosine-similarity value that
has overshot `1` in floating point (here `1 + 10⁻⁷`) is passed unclamped to
`torch.acos` by `reconstruction_SADloss.forward`, which yields NaN (`none`),
while the clamped pipeline the specification mandates succeeds. -/
theorem sad_unclamped_domain_bug :
    sadAcosArgs [1 + 1 / 10 ^ 7] = none ∧
      sadAcosArgsClamped [1 + 1 / 10 ^ 7] = some [1] := by
  have hcond : ¬((-1 : ℚ) ≤ 1 + 1 / 10 ^ 7 ∧ (1 + 1 / 10 ^ 7 : ℚ) ≤ 1) := by
    rintro ⟨-, h2⟩
    norm_num at h2
  have h1 : clampCos (1 + 1 / 10 ^ 7) = 1 := by
    rw [clampCos, min_eq_left (by norm_num : (1 : ℚ) ≤ 1 + 1 / 10 ^ 7),
      max_eq_right (by norm_num : (-1 : ℚ) ≤ 1)]
  have hcond2 : (-1 : ℚ) ≤ clampCos (1 + 1 / 10 ^ 7) ∧ clampCos (1 + 1 / 10 ^ 7) ≤ 1 := by
    rw [h1]
    norm_num
  constructor
  · show optMap acosArg [1 + 1 / 10 ^ 7] = none
    simp only [optMap, acosArg]
    rw [if_neg hcond]
  · show optMap (fun c => acosArg (clampCos c)) [1 + 1 / 10 ^ 7] = some [1]
    simp only [optMap, acosArg]
    rw [if_pos hcond2, h1]

/-! ## Lemmas: FocalFrequencyLoss -/

/-- Membership in the 5-D index list is exactly component-wise range
membership. -/
theorem mem_idxList5_iff {N P C h w : ℕ} {p : ℕ × ℕ × ℕ × ℕ × ℕ} :
    p ∈ idxList5 N P C h w ↔
      p.1 < N ∧ p.2.1 < P ∧ p.2.2.1 < C ∧ p.2.2.2.1 < h ∧ p.2.2.2.2 < w := by
  obtain ⟨n, k, c, u, v⟩ := p
  simp only [idxList5, List.mem_flatMap, List.mem_map, List.mem_range]
  constructor
  · rintro ⟨n', hn', k', hk', c', hc', u', hu', v', hv', heq⟩
    obtain ⟨rfl, rfl, rfl, rfl, rfl⟩ := Prod.mk.injEq .. ▸ heq
    exact ⟨hn', hk', hc', hu', hv'⟩
  · rintro ⟨hn, hk, hc, hu, hv⟩
    exact ⟨n, hn, k, hk, c, hc, u, hu, v, hv, rfl⟩

/-- The observed minimum is a lower bound on every in-range entry. -/
theorem wmin_le_entry {N P C h w : ℕ} (f : ℕ → ℕ → ℕ → ℕ → ℕ → ℝ)
    {n k c u v : ℕ} (hn : n < N) (hk : k < P) (hc : c < C) (hu : u < h) (hv : v < w) :
    wmin N P C h w f ≤ f n k c u v := by
  have hmem : f n k c u v ∈
      (idxList5 N P C h w).map fun p => f p.1 p.2.1 p.2.2.1 p.2.2.2.1 p.2.2.2.2 := by
    rw [List.mem_map]
    exact ⟨(n, k, c, u, v), mem_idxList5_iff.mpr ⟨hn, hk, hc, hu, hv⟩, rfl⟩
  exact (list_minimum_spec _ (List.ne_nil_of_mem hmem)).2 _ hmem

/-- The observed maximum is an upper bound on every in-range entry. -/
theorem entry_le_wmax {N P C h w : ℕ} (f : ℕ → ℕ → ℕ → ℕ → ℕ → ℝ)
    {n k c u v : ℕ} (hn : n < N) (hk : k < P) (hc : c < C) (hu : u < h) (hv : v < w) :
    f n k c u v ≤ wmax N P C h w f := by
  have hmem : f n k c u v ∈
      (idxList5 N P C h w).map fun p => f p.1 p.2.1 p.2.2.1 p.2.2.2.1 p.2.2.2.2 := by
    rw [List.mem_map]
    exact ⟨(n, k, c, u, v), mem_idxList5_iff.mpr ⟨hn, hk, hc, hu, hv⟩, rfl⟩
  exact (list_maximum_spec _ (List.ne_nil_of_mem hmem)).2 _ hmem

/-- If every in-range entry lies in `[0, 1]` then so do the observed
minimum and maximum (an empty tensor gives the junk values `0`). -/
theorem wmin_wmax_bounds {N P C h w : ℕ} (f : ℕ → ℕ → ℕ → ℕ → ℕ → ℝ)
    (hf : ∀ n < N, ∀ k < P, ∀ c < C, ∀ u < h, ∀ v < w,
      0 ≤ f n k c u v ∧ f n k c u v ≤ 1) :
    0 ≤ wmin N P C h w f ∧ wmax N P C h w f ≤ 1 := by
  rcases eq_or_ne
      ((idxList5 N P C h w).map fun p => f p.1 p.2.1 p.2.2.1 p.2.2.2.1 p.2.2.2.2) [] with
    hnil | hne
  · constructor
    · show 0 ≤ (((idxList5 N P C h w).map fun p =>
        f p.1 p.2.1 p.2.2.1 p.2.2.2.1 p.2.2.2.2).minimum).untop' 0
      rw [hnil]
      simp
    · show (((idxList5 N P C h w).map fun p =>
        f p.1 p.2.1 p.2.2.1 p.2.2.2.1 p.2.2.2.2).maximum).unbot' 0 ≤ 1
      rw [hnil]
      simp
  · obtain ⟨hminmem, -⟩ := list_minimum_spec _ hne
    obtain ⟨hmaxmem, -⟩ := list_maximum_spec _ hne
    constructor
    · have hm : wmin N P C h w f ∈
          (idxList5 N P C h w).map fun p => f p.1 p.2.1 p.2.2.1 p.2.2.2.1 p.2.2.2.2 :=
        hminmem
      rw [List.mem_map] at hm
      obtain ⟨p, hp, heq⟩ := hm
      rw [mem_idxList5_iff] at hp
      rw [← heq]
      exact (hf _ hp.1 _ hp.2.1 _ hp.2.2.1 _ hp.2.2.2.1 _ hp.2.2.2.2).1
    · have hm : wmax N P C h w f ∈
          (idxList5 N P C h w).map fun p => f p.1 p.2.1 p.2.2.1 p.2.2.2.1 p.2.2.2.2 :=
        hmaxmem
      rw [List.mem_map] at hm
      obtain ⟨p, hp, heq⟩ := hm
      rw [mem_idxList5_iff] at hp
      rw [← heq]
      exact (hf _ hp.1 _ hp.2.1 _ hp.2.2.1 _ hp.2.2.2.1 _ hp.2.2.2.2).2

/-- The clamped online weight always lies in `[0, 1]`, so the invariant
assert passes on online weights. -/
theorem onlineWeight_mem_unit (cfg : FFLConfig) (rf tf : Freq) (n k c u v : ℕ) :
    0 ≤ onlineWeight cfg rf tf n k c u v ∧ onlineWeight cfg rf tf n k c u v ≤ 1 := by
  refine ⟨le_max_left 0 _, ?_⟩
  rw [onlineWeight]
  exact max_le (by norm_num) (min_le_right _ 1)

/-- With the online weight matrix (`matrix=None`), `loss_formulation` never
fails and returns the weighted mean distance. -/
theorem loss_formulation_none_ok (cfg : FFLConfig) (rf tf : Freq) :
    loss_formulation cfg rf tf none =
      Except.ok (fflLossValue rf tf (onlineWeight cfg rf tf)) := by
  have hwof : weightOf cfg rf tf none = onlineWeight cfg rf tf := rfl
  have hb := @wmin_wmax_bounds rf.N rf.P rf.C rf.H rf.W (weightOf cfg rf tf none)
    (fun n _ k _ c _ u _ v _ => by
      rw [hwof]
      exact onlineWeight_mem_unit cfg rf tf n k c u v)
  rw [loss_formulation, if_pos hb, hwof]

/-- At equal frequency representations the weighted mean distance is `0`
(every summand vanishes), whatever the weights. -/
theorem fflLossValue_self (rf : Freq) (wm : ℕ → ℕ → ℕ → ℕ → ℕ → ℝ) :
    fflLossValue rf rf wm = 0 := by
  simp [fflLossValue, freqDist]

/-- `tensor2freq` succeeds exactly on the divisibility assert. -/
theorem tensor2freq_eq_some {x : T4} {pf : ℕ} (h : x.H % pf = 0 ∧ x.W % pf = 0) :
    tensor2freq x pf = some (tensor2freqBody x pf) := by
  rw [tensor2freq, if_pos h]

/-- `tensor2freq` raises exactly when the divisibility assert fails. -/
theorem tensor2freq_eq_none {x : T4} {pf : ℕ} (h : ¬(x.H % pf = 0 ∧ x.W % pf = 0)) :
    tensor2freq x pf = none := by
  rw [tensor2freq, if_neg h]

/-- `forward` reduced on two successful transforms. -/
theorem fflForward_some_some (cfg : FFLConfig) (pred target : T4)
    (matrix : Option (ℕ → ℕ → ℕ → ℕ → ℕ → ℝ)) (fq1 fq2 : Freq)
    (h1 : tensor2freq pred cfg.patch_factor = some fq1)
    (h2 : tensor2freq target cfg.patch_factor = some fq2) :
    fflForward cfg pred target matrix =
      scaleResult cfg.loss_weight
        (loss_formulation cfg (aveOpt cfg fq1) (aveOpt cfg fq2) matrix) := by
  rw [fflForward, h1, h2]

/-- `forward` raises the patch assert when the first transform fails. -/
theorem fflForward_none_left (cfg : FFLConfig) (pred target : T4)
    (matrix : Option (ℕ → ℕ → ℕ → ℕ → ℕ → ℝ))
    (h1 : tensor2freq pred cfg.patch_factor = none) :
    fflForward cfg pred target matrix = Except.error FFLError.patchAssert := by
  rw [fflForward, h1]

theorem scaleResult_ok (lw l : ℝ) : scaleResult lw (Except.ok l) = Except.ok (l * lw) := rfl

/-! ## Theorems: FocalFrequencyLoss (claims C6, C7, C8) -/

/-- C6: for every configuration and every tensor whose spatial sizes the
patch factor divides, `forward(x, x)` with no external weight matrix
returns exactly `0`: the frequency distance vanishes identically, and the
`0/0` indeterminacies of the online weight normalization (NaNs substituted
by `0` in the source, the `0/0 = 0` convention here) never reach the loss. -/
theorem fflForward_self_zero (cfg : FFLConfig) (x : T4)
    (_hpf : 1 ≤ cfg.patch_factor)
    (hH : cfg.patch_factor ∣ x.H) (hW : cfg.patch_factor ∣ x.W) :
    fflForward cfg x x none = Except.ok 0 := by
  have hcond : x.H % cfg.patch_factor = 0 ∧ x.W % cfg.patch_factor = 0 :=
    ⟨Nat.mod_eq_zero_of_dvd hH, Nat.mod_eq_zero_of_dvd hW⟩
  rw [fflForward_some_some cfg x x none _ _ (tensor2freq_eq_some hcond)
    (tensor2freq_eq_some hcond)]
  rw [loss_formulation_none_ok, fflLossValue_self, scaleResult_ok, zero_mul]

/-- C6 (witness): `forward(x, x) = 0` for a `1×1×4×4` tensor at
`patch_factor = 2`. -/
theorem fflForward_self_zero_witness :
    (1 ≤ 2) ∧ (2 ∣ 4) ∧
      fflForward ⟨1, 1, 2, false, false, false⟩ ⟨1, 1, 4, 4, fun _ _ _ _ => 0⟩
        ⟨1, 1, 4, 4, fun _ _ _ _ => 0⟩ none = Except.ok 0 :=
  ⟨by norm_num, by norm_num,
    fflForward_self_zero ⟨1, 1, 2, false, false, false⟩ ⟨1, 1, 4, 4, fun _ _ _ _ => 0⟩
      (by norm_num) (by norm_num) (by norm_num)⟩

/-- C7: with no external matrix, `forward` fails — with the patch-assert
configuration error, raised in `tensor2freq` before any loss value is
computed — exactly when `patch_factor` does not divide both spatial sizes. -/
theorem fflForward_config_iff (cfg : FFLConfig) (pred target : T4)
    (_hpf : 1 ≤ cfg.patch_factor) (hH : target.H = pred.H) (hW : target.W = pred.W) :
    fflForward cfg pred target none = Except.error FFLError.patchAssert ↔
      ¬(cfg.patch_factor ∣ pred.H ∧ cfg.patch_factor ∣ pred.W) := by
  constructor
  · intro herr hdvd
    have hcond : pred.H % cfg.patch_factor = 0 ∧ pred.W % cfg.patch_factor = 0 :=
      ⟨Nat.mod_eq_zero_of_dvd hdvd.1, Nat.mod_eq_zero_of_dvd hdvd.2⟩
    have hcondT : target.H % cfg.patch_factor = 0 ∧ target.W % cfg.patch_factor = 0 := by
      rw [hH, hW]
      exact hcond
    rw [fflForward_some_some cfg pred target none _ _ (tensor2freq_eq_some hcond)
      (tensor2freq_eq_some hcondT), loss_formulation_none_ok, scaleResult_ok] at herr
    exact Except.noConfusion herr
  · intro hnd
    have hcond : ¬(pred.H % cfg.patch_factor = 0 ∧ pred.W % cfg.patch_factor = 0) := by
      rintro ⟨h1, h2⟩
      exact hnd ⟨Nat.dvd_of_mod_eq_zero h1, Nat.dvd_of_mod_eq_zero h2⟩
    exact fflForward_none_left cfg pred target none (tensor2freq_eq_none hcond)

/-- C7 (witness): `patch_factor = 2` on a `7×7` image fails with the
configuration error. -/
theorem fflForward_config_iff_witness :
    ¬((2 : ℕ) ∣ 7 ∧ (2 : ℕ) ∣ 7) ∧
      fflForward ⟨1, 1, 2, false, false, false⟩ ⟨1, 1, 7, 7, fun _ _ _ _ => 0⟩
        ⟨1, 1, 7, 7, fun _ _ _ _ => 0⟩ none = Except.error FFLError.patchAssert := by
  have hnd : ¬((2 : ℕ) ∣ 7 ∧ (2 : ℕ) ∣ 7) := by decide
  exact ⟨hnd,
    (fflForward_config_iff ⟨1, 1, 2, false, false, false⟩ ⟨1, 1, 7, 7, fun _ _ _ _ => 0⟩
      ⟨1, 1, 7, 7, fun _ _ _ _ => 0⟩ (by norm_num) rfl rfl).mpr hnd⟩

/-- C8: with an externally supplied spectrum weight matrix,
`loss_formulation` fails — with the invariant-violation error reporting the
observed minimum and maximum — whenever some in-range entry lies outside
`[0, 1]`, and does not fail when all in-range entries lie in `[0, 1]`.  (The
nonempty-shape hypothesis reflects that torch's `.min()`/`.max()` need a
nonempty tensor.) -/
theorem loss_formulation_matrix_invariant (cfg : FFLConfig) (rf tf : Freq)
    (m : ℕ → ℕ → ℕ → ℕ → ℕ → ℝ)
    (_hne : 0 < rf.N ∧ 0 < rf.P ∧ 0 < rf.C ∧ 0 < rf.H ∧ 0 < rf.W) :
    ((∃ n < rf.N, ∃ k < rf.P, ∃ c < rf.C, ∃ u < rf.H, ∃ v < rf.W,
        m n k c u v < 0 ∨ 1 < m n k c u v) →
      loss_formulation cfg rf tf (some m) =
        Except.error (FFLError.weightRange (wmin rf.N rf.P rf.C rf.H rf.W m)
          (wmax rf.N rf.P rf.C rf.H rf.W m))) ∧
    ((∀ n < rf.N, ∀ k < rf.P, ∀ c < rf.C, ∀ u < rf.H, ∀ v < rf.W,
        0 ≤ m n k c u v ∧ m n k c u v ≤ 1) →
      loss_formulation cfg rf tf (some m) = Except.ok (fflLossValue rf tf m)) := by
  have hwof : weightOf cfg rf tf (some m) = m := rfl
  constructor
  · rintro ⟨n, hn, k, hk, c, hc, u, hu, v, hv, hout⟩
    have hfail : ¬(0 ≤ wmin rf.N rf.P rf.C rf.H rf.W (weightOf cfg rf tf (some m)) ∧
        wmax rf.N rf.P rf.C rf.H rf.W (weightOf cfg rf tf (some m)) ≤ 1) := by
      rw [hwof]
      rintro ⟨hmin, hmax⟩
      rcases hout with hlt | hgt
      · have := wmin_le_entry m hn hk hc hu hv
        linarith
      · have := entry_le_wmax m hn hk hc hu hv
        linarith
    rw [loss_formulation, if_neg hfail, hwof]
  · intro hall
    have hpass : 0 ≤ wmin rf.N rf.P rf.C rf.H rf.W (weightOf cfg rf tf (some m)) ∧
        wmax rf.N rf.P rf.C rf.H rf.W (weightOf cfg rf tf (some m)) ≤ 1 := by
      rw [hwof]
      exact @wmin_wmax_bounds rf.N rf.P rf.C rf.H rf.W m hall
    rw [loss_formulation, if_pos hpass, hwof]

/-- C8 (witness): a constant external matrix with value `3/2` triggers the
invariant failure on a `1×1×1×1×1` spectrum, with the observed min and max
reported. -/
theorem loss_formulation_matrix_invariant_witness :
    ((3 : ℝ) / 2 < 0 ∨ 1 < (3 : ℝ) / 2) ∧
      loss_formulation ⟨1, 1, 1, false, false, false⟩
        ⟨1, 1, 1, 1, 1, fun _ _ _ _ _ => 0, fun _ _ _ _ _ => 0⟩
        ⟨1, 1, 1, 1, 1, fun _ _ _ _ _ => 0, fun _ _ _ _ _ => 0⟩
        (some fun _ _ _ _ _ => (3 : ℝ) / 2) =
        Except.error (FFLError.weightRange (wmin 1 1 1 1 1 fun _ _ _ _ _ => (3 : ℝ) / 2)
          (wmax 1 1 1 1 1 fun _ _ _ _ _ => (3 : ℝ) / 2)) := by
  refine ⟨Or.inr (by norm_num), ?_⟩
  exact (loss_formulation_matrix_invariant ⟨1, 1, 1, false, false, false⟩
    ⟨1, 1, 1, 1, 1, fun _ _ _ _ _ => 0, fun _ _ _ _ _ => 0⟩
    ⟨1, 1, 1, 1, 1, fun _ _ _ _ _ => 0, fun _ _ _ _ _ => 0⟩
    (fun _ _ _ _ _ => (3 : ℝ) / 2)
    (by norm_num)).1
    ⟨0, by norm_num, 0, by norm_num, 0, by norm_num, 0, by norm_num, 0, by norm_num,
      Or.inr (by norm_num)⟩

end RGB2HSI
